import Mathlib

/-!
Verification of the isolation game agent (src/game_agent.py).

The module under verification contains two agents built on a shared base
class IsolationPlayer: MinimaxPlayer (fixed-depth minimax) and
AlphaBetaPlayer (iterative-deepening alpha-beta), plus three heuristic
evaluators (custom_score, custom_score_2, custom_score_3).

The external game-state collaborator (isolation.Board) is not part of the
source; following the spec (section 6) it is modelled abstractly:
a game state is a finitely-branching tree whose children list pairs each
legal move (in the authoritative enumeration order) with the state produced
by forecast_move for that move, together with the move counter and the board
geometry.  Scores are extended rationals (float("-inf") is the bottom
element, float("inf") the top element; the search kernel only compares
scores, so rationals model the finite values exactly for the comparisons at
issue).

The computations are embedded in a small state-plus-exception monad M:
the state is an instrumentation trace counting calls to time_left (checks),
forecast_move (forecasts), the injected evaluator (evals) and the search
kernels (searches); the exception is either the SearchTimeout signal or
Python ValueError (raised by max() on an empty sequence).  The time-left
observer is modelled as the sequence of values it returns, indexed by how
many times it has been called; the threshold parameter is the
TIMER_THRESHOLD of IsolationPlayer.
-/

set_option maxHeartbeats 1000000

namespace Isolation

/-- A move is a pair of integer board coordinates (row, column). -/
abbrev Move : Type := Int × Int

/-- The no-move sentinel (-1, -1). -/
def sentinel : Move := (-1, -1)

/-- Scores: extended rationals.  float("-inf") is the bottom element and
float("inf") the top element. -/
abbrev Score : Type := WithBot (WithTop ℚ)

/-- Embed a finite rational value into the score type. -/
def Score.ofQ (q : ℚ) : Score := ((q : WithTop ℚ) : Score)

/-- The exceptions that the embedded code can raise: the SearchTimeout
control-flow signal, and Python ValueError (from max() on an empty
sequence). -/
inductive Err : Type where
  | timeout
  | valueError
deriving DecidableEq, Repr

/-- Instrumentation trace: how many times the time-left observer, the
forecast_move transition, the injected evaluator and the search kernels
(minimax / alphabeta) have been called so far. -/
structure Trace where
  checks : Nat
  forecasts : Nat
  evals : Nat
  searches : Nat
deriving DecidableEq, Repr

/-- The embedding monad: instrumentation state plus exceptions.  The trace
persists through a raised exception (Python side effects survive a raise). -/
def M (α : Type) : Type := Trace → Except Err α × Trace

def mpure {α : Type} (a : α) : M α := fun t => (Except.ok a, t)

def mthrow {α : Type} (e : Err) : M α := fun t => (Except.error e, t)

def mbind {α β : Type} (x : M α) (f : α → M β) : M β := fun t =>
  match x t with
  | (Except.ok a, t2) => f a t2
  | (Except.error e, t2) => (Except.error e, t2)

/-- Catch only the SearchTimeout exception, as the Python
except SearchTimeout blocks do; any other exception propagates. -/
def catchTimeout {α : Type} (x : M α) (h : M α) : M α := fun t =>
  match x t with
  | (Except.error Err.timeout, t2) => h t2
  | r => r

/-- Modelled from the spec: the external game-state collaborator
(isolation.Board, not in src/).  Per section 6 of the spec it exposes legal
move enumeration in a deterministic, authoritative order, a pure
forecastMove transition, the move counter and the board geometry.  A state
is modelled as the finitely-branching game tree it generates: children
lists each legal move of the active player, in enumeration order, together
with the state forecast_move produces for it. -/
inductive Board : Type where
  | mk (children : List (Move × Board)) (moveCount : Nat)
      (width : Nat) (height : Nat)

def Board.children : Board → List (Move × Board)
  | .mk cs _ _ _ => cs

def Board.moveCount : Board → Nat
  | .mk _ mc _ _ => mc

def Board.width : Board → Nat
  | .mk _ _ w _ => w

def Board.height : Board → Nat
  | .mk _ _ _ h => h

/-- game.get_legal_moves(): the legal moves of the active player, in the
authoritative enumeration order. -/
def Board.legalMoves (b : Board) : List Move := b.children.map Prod.fst

/-- IsolationPlayer.time_check: read the time-left observer once and raise
SearchTimeout when the reading is below TIMER_THRESHOLD. -/
def time_check (obs : Nat → ℚ) (thr : ℚ) : M Unit := fun t =>
  ((if obs t.checks < thr then Except.error Err.timeout else Except.ok ()),
   { t with checks := t.checks + 1 })

/-- A call to the injected evaluator self.score(game, self). -/
def callScore (score : Board → Score) (b : Board) : M Score := fun t =>
  (Except.ok (score b), { t with evals := t.evals + 1 })

/-- Instrumentation for one call to game.forecast_move(m); in the tree
model the forecast state is the child paired with the move. -/
def noteForecast : M Unit := fun t =>
  (Except.ok (), { t with forecasts := t.forecasts + 1 })

/-- Instrumentation for one invocation of a search kernel entry point
(MinimaxPlayer.minimax or AlphaBetaPlayer.alphabeta). -/
def noteSearch : M Unit := fun t =>
  (Except.ok (), { t with searches := t.searches + 1 })

/-- MinimaxPlayer.terminal_test: time_check, then report whether the
active player has no legal moves. -/
def MinimaxPlayer.terminal_test (obs : Nat → ℚ) (thr : ℚ) (b : Board) :
    M Bool :=
  mbind (time_check obs thr) fun _ => mpure b.legalMoves.isEmpty

mutual

/-- MinimaxPlayer.min_value: value +inf on a finished game, the evaluator
at depth 0, otherwise the minimum over the forecasts of the legal moves. -/
def MinimaxPlayer.min_value (score : Board → Score) (obs : Nat → ℚ)
    (thr : ℚ) (b : Board) (d : Int) : M Score :=
  mbind (MinimaxPlayer.terminal_test obs thr b) fun term =>
    if term then mpure (⊤ : Score)
    else if d = 0 then callScore score b
    else MinimaxPlayer.minLoop score obs thr b.children d (⊤ : Score)
termination_by sizeOf b
decreasing_by cases b; simp [Board.children]; omega

/-- The for-loop of MinimaxPlayer.min_value over the legal moves. -/
def MinimaxPlayer.minLoop (score : Board → Score) (obs : Nat → ℚ) (thr : ℚ)
    (cs : List (Move × Board)) (d : Int) (v : Score) : M Score :=
  match cs with
  | [] => mpure v
  | (m, c) :: rest =>
      mbind (noteForecast) fun _ =>
        mbind (MinimaxPlayer.max_value score obs thr c (d - 1)) fun w =>
          MinimaxPlayer.minLoop score obs thr rest d (min v w)
termination_by sizeOf cs

/-- MinimaxPlayer.max_value: value -inf on a finished game, the evaluator
at depth 0, otherwise the maximum over the forecasts of the legal moves. -/
def MinimaxPlayer.max_value (score : Board → Score) (obs : Nat → ℚ)
    (thr : ℚ) (b : Board) (d : Int) : M Score :=
  mbind (MinimaxPlayer.terminal_test obs thr b) fun term =>
    if term then mpure (⊥ : Score)
    else if d = 0 then callScore score b
    else MinimaxPlayer.maxLoop score obs thr b.children d (⊥ : Score)
termination_by sizeOf b
decreasing_by cases b; simp [Board.children]; omega

/-- The for-loop of MinimaxPlayer.max_value over the legal moves. -/
def MinimaxPlayer.maxLoop (score : Board → Score) (obs : Nat → ℚ) (thr : ℚ)
    (cs : List (Move × Board)) (d : Int) (v : Score) : M Score :=
  match cs with
  | [] => mpure v
  | (m, c) :: rest =>
      mbind (noteForecast) fun _ =>
        mbind (MinimaxPlayer.min_value score obs thr c (d - 1)) fun w =>
          MinimaxPlayer.maxLoop score obs thr rest d (max v w)
termination_by sizeOf cs

end

/-- The iteration of Python max(legal_moves, key=...) after the first
element: key is evaluated left to right and the first maximum is kept
(a later element replaces the best only on a strictly greater key). -/
def MinimaxPlayer.argLoop (score : Board → Score) (obs : Nat → ℚ) (thr : ℚ)
    (cs : List (Move × Board)) (d : Int) (best : Move) (bv : Score) :
    M Move :=
  match cs with
  | [] => mpure best
  | (m, c) :: rest =>
      mbind (noteForecast) fun _ =>
        mbind (MinimaxPlayer.min_value score obs thr c (d - 1)) fun v =>
          if bv < v then MinimaxPlayer.argLoop score obs thr rest d m v
          else MinimaxPlayer.argLoop score obs thr rest d best bv

/-- MinimaxPlayer.minimax: max(game.get_legal_moves(),
key = lambda m: min_value(forecast_move(m), depth - 1)).  Python max
raises ValueError on an empty sequence; on a nonempty one it evaluates the
key left to right and keeps the first maximum. -/
def MinimaxPlayer.minimax (score : Board → Score) (obs : Nat → ℚ) (thr : ℚ)
    (b : Board) (d : Int) : M Move :=
  mbind (noteSearch) fun _ =>
    match b.children with
    | [] => mthrow Err.valueError
    | (m, c) :: rest =>
        mbind (noteForecast) fun _ =>
          mbind (MinimaxPlayer.min_value score obs thr c (d - 1)) fun v =>
            MinimaxPlayer.argLoop score obs thr rest d m v

/-- MinimaxPlayer.get_move: initialize the best move to the sentinel,
return it if terminal_test reports no legal moves (this call is OUTSIDE
the try block), otherwise run minimax under a handler that swallows only
SearchTimeout. -/
def MinimaxPlayer.get_move (score : Board → Score) (obs : Nat → ℚ)
    (thr : ℚ) (b : Board) (search_depth : Int) : M Move :=
  mbind (MinimaxPlayer.terminal_test obs thr b) fun term =>
    if term then mpure sentinel
    else catchTimeout (MinimaxPlayer.minimax score obs thr b search_depth)
      (mpure sentinel)

mutual

/-- AlphaBetaPlayer.min_value: time_check first, the evaluator at depth 0,
+inf when the player to move has no legal moves, otherwise the pruning
minimum loop. -/
def AlphaBetaPlayer.min_value (score : Board → Score) (obs : Nat → ℚ)
    (thr : ℚ) (b : Board) (d : Int) (a beta : Score) : M Score :=
  mbind (time_check obs thr) fun _ =>
    if d = 0 then callScore score b
    else if b.legalMoves.isEmpty then mpure (⊤ : Score)
    else AlphaBetaPlayer.minLoop score obs thr b.children d a beta (⊤ : Score)
termination_by sizeOf b
decreasing_by cases b; simp [Board.children]; omega

/-- The for-loop of AlphaBetaPlayer.min_value: accumulate the minimum,
break when it is at most alpha, otherwise lower beta to it. -/
def AlphaBetaPlayer.minLoop (score : Board → Score) (obs : Nat → ℚ)
    (thr : ℚ) (cs : List (Move × Board)) (d : Int) (a beta v : Score) :
    M Score :=
  match cs with
  | [] => mpure v
  | (m, c) :: rest =>
      mbind (noteForecast) fun _ =>
        mbind (AlphaBetaPlayer.max_value score obs thr c (d - 1) a beta)
          fun w =>
            if min v w ≤ a then mpure (min v w)
            else AlphaBetaPlayer.minLoop score obs thr rest d a
              (min beta (min v w)) (min v w)
termination_by sizeOf cs

/-- AlphaBetaPlayer.max_value: time_check first, the evaluator at depth 0,
-inf when the player to move has no legal moves, otherwise the pruning
maximum loop. -/
def AlphaBetaPlayer.max_value (score : Board → Score) (obs : Nat → ℚ)
    (thr : ℚ) (b : Board) (d : Int) (a beta : Score) : M Score :=
  mbind (time_check obs thr) fun _ =>
    if d = 0 then callScore score b
    else if b.legalMoves.isEmpty then mpure (⊥ : Score)
    else AlphaBetaPlayer.maxLoop score obs thr b.children d a beta (⊥ : Score)
termination_by sizeOf b
decreasing_by cases b; simp [Board.children]; omega

/-- The for-loop of AlphaBetaPlayer.max_value: accumulate the maximum,
break when it is at least beta, otherwise raise alpha to it. -/
def AlphaBetaPlayer.maxLoop (score : Board → Score) (obs : Nat → ℚ)
    (thr : ℚ) (cs : List (Move × Board)) (d : Int) (a beta v : Score) :
    M Score :=
  match cs with
  | [] => mpure v
  | (m, c) :: rest =>
      mbind (noteForecast) fun _ =>
        mbind (AlphaBetaPlayer.min_value score obs thr c (d - 1) a beta)
          fun w =>
            if beta ≤ max v w then mpure (max v w)
            else AlphaBetaPlayer.maxLoop score obs thr rest d
              (max a (max v w)) beta (max v w)
termination_by sizeOf cs

end

/-- The root loop of AlphaBetaPlayer.alphabeta: every legal move is scored
(there is no cutoff test at the root), alpha is raised to each score, and
the best move is replaced only on a strict improvement of the best score. -/
def AlphaBetaPlayer.rootLoop (score : Board → Score) (obs : Nat → ℚ)
    (thr : ℚ) (cs : List (Move × Board)) (d : Int) (a beta bs : Score)
    (best : Move) : M Move :=
  match cs with
  | [] => mpure best
  | (m, c) :: rest =>
      mbind (noteForecast) fun _ =>
        mbind (AlphaBetaPlayer.min_value score obs thr c (d - 1) a beta)
          fun s =>
            if bs < s then
              AlphaBetaPlayer.rootLoop score obs thr rest d (max a s) beta s m
            else
              AlphaBetaPlayer.rootLoop score obs thr rest d (max a s) beta
                bs best

/-- AlphaBetaPlayer.alphabeta: time_check first, then return the sentinel
when there are no legal moves, otherwise run the root loop starting from
best_score = -inf and best_move = (-1, -1). -/
def AlphaBetaPlayer.alphabeta (score : Board → Score) (obs : Nat → ℚ)
    (thr : ℚ) (b : Board) (d : Int) (a beta : Score) : M Move :=
  mbind (noteSearch) fun _ =>
    mbind (time_check obs thr) fun _ =>
      if b.legalMoves.isEmpty then mpure sentinel
      else AlphaBetaPlayer.rootLoop score obs thr b.children d a beta
        (⊥ : Score) sentinel

/-- The while-True iterative-deepening loop of AlphaBetaPlayer.get_move,
fused with the enclosing except SearchTimeout handler: each completed
alphabeta call replaces the best move and the depth grows by one; a
SearchTimeout returns the best move recorded so far; any other exception
propagates.  The fuel argument bounds how many iterations are modelled;
none is returned when the fuel runs out with the loop still running. -/
def AlphaBetaPlayer.loop (score : Board → Score) (obs : Nat → ℚ) (thr : ℚ)
    (b : Board) (fuel : Nat) (d : Int) (best : Move) : M (Option Move) :=
  match fuel with
  | 0 => mpure none
  | Nat.succ fuel2 => fun t =>
      match AlphaBetaPlayer.alphabeta score obs thr b d (⊥ : Score)
          (⊤ : Score) t with
      | (Except.ok mv, t2) =>
          AlphaBetaPlayer.loop score obs thr b fuel2 (d + 1) mv t2
      | (Except.error Err.timeout, t2) => (Except.ok (some best), t2)
      | (Except.error e, t2) => (Except.error e, t2)

/-- AlphaBetaPlayer.get_move: initialize the best move to the sentinel and
the search depth to 1; on the first or second ply of the game return
(width // 2, height // 2) immediately when it is a legal move of the
active player; otherwise run the iterative-deepening loop. -/
def AlphaBetaPlayer.get_move (score : Board → Score) (obs : Nat → ℚ)
    (thr : ℚ) (b : Board) (fuel : Nat) : M (Option Move) :=
  if b.moveCount = 0 ∨ b.moveCount = 1 then
    if (((b.width / 2 : Nat) : Int), ((b.height / 2 : Nat) : Int)) ∈
        b.legalMoves then
      mpure (some (((b.width / 2 : Nat) : Int), ((b.height / 2 : Nat) : Int)))
    else AlphaBetaPlayer.loop score obs thr b fuel 1 sentinel
  else AlphaBetaPlayer.loop score obs thr b fuel 1 sentinel

/-- Modelled from the spec: the data a standalone heuristic evaluator reads
from the external board through the section-6 interface, for a fixed
perspective player: is_loser / is_winner for that player, the legal moves
of that player and of its opponent, and the board geometry. -/
structure EvalState where
  isLoser : Bool
  isWinner : Bool
  ourMoves : List Move
  oppMoves : List Move
  width : Nat
  height : Nat

/-- custom_score: -inf on a lost state, +inf on a won state, otherwise the
square of the number of (distinct) own legal moves whose reflection
(width - 1 - row, height - 1 - column) is not a legal move of the
opponent, minus the number of the opponent legal moves.  The Python set
makes the count one of distinct moves. -/
def custom_score (g : EvalState) : Score :=
  if g.isLoser then (⊥ : Score)
  else if g.isWinner then (⊤ : Score)
  else
    Score.ofQ
      (((((g.ourMoves.filter (fun mv =>
          decide (((g.width : Int) - 1 - mv.1, (g.height : Int) - 1 - mv.2) ∉
            g.oppMoves))).dedup.length : Int) ^ 2
        - (g.oppMoves.length : Int) : Int) : ℚ))

/-- custom_score_2: -inf on a lost state, +inf on a won state, otherwise
for each own legal move accumulate
1 / max(0.01, width // 2 - column) + 1 / max(0.01, height // 2 - row). -/
def custom_score_2 (g : EvalState) : Score :=
  if g.isLoser then (⊥ : Score)
  else if g.isWinner then (⊤ : Score)
  else
    Score.ofQ (g.ourMoves.foldl (fun s mv =>
      s + 1 / max (1 / 100 : ℚ) (((g.width / 2 : Nat) : ℚ) - (mv.2 : ℚ))
        + 1 / max (1 / 100 : ℚ) (((g.height / 2 : Nat) : ℚ) - (mv.1 : ℚ))) 0)

/-- custom_score_3: -inf on a lost state, +inf on a won state, otherwise
100 / max(0.0001, number of opponent legal moves). -/
def custom_score_3 (g : EvalState) : Score :=
  if g.isLoser then (⊥ : Score)
  else if g.isWinner then (⊤ : Score)
  else Score.ofQ (100 / max (1 / 10000 : ℚ) ((g.oppMoves.length : ℚ)))

/-- The time-left observer never reads below TIMER_THRESHOLD: no call to
time_check can raise SearchTimeout. -/
def noTimeout (obs : Nat → ℚ) (thr : ℚ) : Prop := ∀ n, ¬ obs n < thr

mutual

/-- The value computed by MinimaxPlayer.min_value when no timeout occurs
(the time_check inside terminal_test then acts as a no-op on the value). -/
def pureMMmin (score : Board → Score) (b : Board) (d : Int) : Score :=
  if b.legalMoves.isEmpty then (⊤ : Score)
  else if d = 0 then score b
  else pureMMminLoop score b.children d (⊤ : Score)
termination_by sizeOf b
decreasing_by cases b; simp [Board.children]; omega

/-- The value accumulated by the for-loop of MinimaxPlayer.min_value. -/
def pureMMminLoop (score : Board → Score) (cs : List (Move × Board))
    (d : Int) (v : Score) : Score :=
  match cs with
  | [] => v
  | (_, c) :: rest =>
      pureMMminLoop score rest d (min v (pureMMmax score c (d - 1)))
termination_by sizeOf cs

/-- The value computed by MinimaxPlayer.max_value when no timeout occurs. -/
def pureMMmax (score : Board → Score) (b : Board) (d : Int) : Score :=
  if b.legalMoves.isEmpty then (⊥ : Score)
  else if d = 0 then score b
  else pureMMmaxLoop score b.children d (⊥ : Score)
termination_by sizeOf b
decreasing_by cases b; simp [Board.children]; omega

/-- The value accumulated by the for-loop of MinimaxPlayer.max_value. -/
def pureMMmaxLoop (score : Board → Score) (cs : List (Move × Board))
    (d : Int) (v : Score) : Score :=
  match cs with
  | [] => v
  | (_, c) :: rest =>
      pureMMmaxLoop score rest d (max v (pureMMmin score c (d - 1)))
termination_by sizeOf cs

end

mutual

/-- The value computed by AlphaBetaPlayer.min_value when no timeout
occurs. -/
def pureABmin (score : Board → Score) (b : Board) (d : Int)
    (a beta : Score) : Score :=
  if d = 0 then score b
  else if b.legalMoves.isEmpty then (⊤ : Score)
  else pureABminLoop score b.children d a beta (⊤ : Score)
termination_by sizeOf b
decreasing_by cases b; simp [Board.children]; omega

/-- The value accumulated by the for-loop of AlphaBetaPlayer.min_value:
accumulate the minimum, break when it is at most alpha, otherwise lower
beta to it. -/
def pureABminLoop (score : Board → Score) (cs : List (Move × Board))
    (d : Int) (a beta v : Score) : Score :=
  match cs with
  | [] => v
  | (_, c) :: rest =>
      let w := pureABmax score c (d - 1) a beta
      if min v w ≤ a then min v w
      else pureABminLoop score rest d a (min beta (min v w)) (min v w)
termination_by sizeOf cs

/-- The value computed by AlphaBetaPlayer.max_value when no timeout
occurs. -/
def pureABmax (score : Board → Score) (b : Board) (d : Int)
    (a beta : Score) : Score :=
  if d = 0 then score b
  else if b.legalMoves.isEmpty then (⊥ : Score)
  else pureABmaxLoop score b.children d a beta (⊥ : Score)
termination_by sizeOf b
decreasing_by cases b; simp [Board.children]; omega

/-- The value accumulated by the for-loop of AlphaBetaPlayer.max_value:
accumulate the maximum, break when it is at least beta, otherwise raise
alpha to it. -/
def pureABmaxLoop (score : Board → Score) (cs : List (Move × Board))
    (d : Int) (a beta v : Score) : Score :=
  match cs with
  | [] => v
  | (_, c) :: rest =>
      let w := pureABmin score c (d - 1) a beta
      if beta ≤ max v w then max v w
      else pureABmaxLoop score rest d (max a (max v w)) beta (max v w)
termination_by sizeOf cs

end

/-- The best move and best score accumulated by the root loop of
AlphaBetaPlayer.alphabeta when no timeout occurs. -/
def pureABrootLoop (score : Board → Score) (cs : List (Move × Board))
    (d : Int) (a beta bs : Score) (best : Move) : Move × Score :=
  match cs with
  | [] => (best, bs)
  | (m, c) :: rest =>
      let s := pureABmin score c (d - 1) a beta
      if bs < s then pureABrootLoop score rest d (max a s) beta s m
      else pureABrootLoop score rest d (max a s) beta bs best

/-- The move and root score computed by AlphaBetaPlayer.alphabeta when no
timeout occurs. -/
def pureABroot (score : Board → Score) (b : Board) (d : Int)
    (a beta : Score) : Move × Score :=
  if b.legalMoves.isEmpty then (sentinel, (⊥ : Score))
  else pureABrootLoop score b.children d a beta (⊥ : Score) sentinel

/-- The successive root scores computed by the root loop of alphabeta,
with alpha raised to each score before the next sibling is searched. -/
def rootScores (score : Board → Score) (cs : List (Move × Board))
    (d : Int) (a beta : Score) : List Score :=
  match cs with
  | [] => []
  | (_, c) :: rest =>
      let s := pureABmin score c (d - 1) a beta
      s :: rootScores score rest d (max a s) beta

mutual

/-- The spec (section 4.1) contract for an injected evaluator, relative to
the node parity at which each state of the tree is reached: at a state
with no legal moves the evaluator must return +inf when the state is
reached at a MIN node (the agent opponent is immobilized, the agent has
won) and -inf at a MAX node (the agent is immobilized and has lost). -/
def ScoreContract (score : Board → Score) (isMin : Bool) (b : Board) :
    Bool :=
  (!b.legalMoves.isEmpty
    || decide (score b = if isMin then (⊤ : Score) else (⊥ : Score)))
  && ScoreContractList score (!isMin) b.children
termination_by sizeOf b
decreasing_by cases b; simp [Board.children]; omega

/-- ScoreContract for every child of a node. -/
def ScoreContractList (score : Board → Score) (isMin : Bool)
    (cs : List (Move × Board)) : Bool :=
  match cs with
  | [] => true
  | (_, c) :: rest =>
      ScoreContract score isMin c && ScoreContractList score isMin rest
termination_by sizeOf cs

end

/-- Definition following the words of claim C8 and spec section 4.1
(asymmetric mobility): identical to custom_score except that the
point-reflection through the board center is written
(height - 1 - row, width - 1 - column); kept only for comparison with the
source function. -/
def claimReflectionScore (g : EvalState) : Score :=
  if g.isLoser then (⊥ : Score)
  else if g.isWinner then (⊤ : Score)
  else
    Score.ofQ
      (((((g.ourMoves.filter (fun mv =>
          decide (((g.height : Int) - 1 - mv.1, (g.width : Int) - 1 - mv.2) ∉
            g.oppMoves))).dedup.length : Int) ^ 2
        - (g.oppMoves.length : Int) : Int) : ℚ))

/-- The results of the successive alphabeta calls made by the
iterative-deepening driver at depths d, d + 1, ... (spec section 4.5):
the moves returned by the calls that ran to completion, in order, together
with the final trace and the exception (if any) that ended the sequence
(none while the modelling fuel allows no conclusion). -/
def driverRuns (score : Board → Score) (obs : Nat → ℚ) (thr : ℚ)
    (b : Board) (fuel : Nat) (d : Int) (t : Trace) :
    List Move × Trace × Option Err :=
  match fuel with
  | 0 => ([], t, none)
  | Nat.succ fuel2 =>
      match AlphaBetaPlayer.alphabeta score obs thr b d (⊥ : Score)
          (⊤ : Score) t with
      | (Except.ok mv, t2) =>
          let r := driverRuns score obs thr b fuel2 (d + 1) t2
          (mv :: r.1, r.2)
      | (Except.error e, t2) => ([], t2, some e)

/-- The outcome the spec prescribes for the iterative-deepening driver
given the sequence of completed results: on SearchTimeout return the last
fully completed result (the initial best move when no call completed),
propagate any other exception, and return none while the fuel allows no
conclusion. -/
def driverOutcome (best : Move) :
    List Move × Trace × Option Err → Except Err (Option Move) × Trace
  | (l, t, some Err.timeout) => (Except.ok (some (l.getLastD best)), t)
  | (_, t, some Err.valueError) => (Except.error Err.valueError, t)
  | (_, t, none) => (Except.ok none, t)

/-- The root selection fold of alphabeta over (move, score) pairs: the
best pair is replaced exactly when the new score strictly exceeds the
best score. -/
def argFold : List (Move × Score) → Score → Move → Move × Score
  | [], bs, best => (best, bs)
  | (m, s) :: rest, bs, best =>
      if bs < s then argFold rest s m else argFold rest bs best

/-- A constant time-left observer. -/
def constObs (q : ℚ) : Nat → ℚ := fun _ => q

/-- An evaluator returning the constant finite score 0. -/
def zeroScore : Board → Score := fun _ => Score.ofQ 0

/-- An evaluator returning the constant finite score 42. -/
def fortyTwoScore : Board → Score := fun _ => Score.ofQ 42

/-- An evaluator returning +inf everywhere. -/
def topScore : Board → Score := fun _ => (⊤ : Score)

/-- An evaluator returning -inf everywhere. -/
def botScore : Board → Score := fun _ => (⊥ : Score)

/-- The initial instrumentation trace. -/
def t0 : Trace := ⟨0, 0, 0, 0⟩

/-- A finished state: the active player has no legal moves. -/
def leafBoard : Board := Board.mk [] 2 7 7

/-- A state with exactly one legal move, leading to a finished state. -/
def oneMoveBoard : Board := Board.mk [((0, 0), leafBoard)] 2 7 7

/-- A non-square opening position (width 5, height 3, move count 0) whose
only legal move is the exact board-center cell
(height // 2, width // 2) = (1, 2). -/
def centerOnlyBoard : Board := Board.mk [((1, 2), Board.mk [] 1 5 3)] 0 5 3

/-- A non-square opening position whose only legal move is the swapped
cell (width // 2, height // 2) = (2, 1) that the code actually plays. -/
def swappedCenterBoard : Board := Board.mk [((2, 1), Board.mk [] 1 5 3)] 0 5 3

/-- Evaluator state on a 3 by 3 board whose only own legal move is the
exact center cell (1, 1). -/
def gCenter33 : EvalState := EvalState.mk false false [(1, 1)] [] 3 3

/-- Evaluator state on a 3 by 3 board whose only own legal move is the
far corner cell (2, 2). -/
def gFarCorner33 : EvalState := EvalState.mk false false [(2, 2)] [] 3 3

/-- Evaluator state on a width-5, height-3 board with one own legal move
(2, 4) and one opponent legal move (0, 0), distinguishing the reflection
formula of the source from the one of the claim. -/
def gReflect : EvalState := EvalState.mk false false [(2, 4)] [(0, 0)] 5 3

/-! Theorems.  First, small facts about the score coercion. -/

theorem Score.ofQ_lt_ofQ {a b : ℚ} : Score.ofQ a < Score.ofQ b ↔ a < b := by
  simp [Score.ofQ]

theorem Score.ofQ_le_ofQ {a b : ℚ} : Score.ofQ a ≤ Score.ofQ b ↔ a ≤ b := by
  simp [Score.ofQ]

/-- Claim C1 (code_bug evidence): with the observer already reading below
TIMER_THRESHOLD at entry (every reading 0, threshold 19/2 = 10 - 0.5),
MinimaxPlayer.get_move raises SearchTimeout to its caller: the
terminal_test call sits outside the try block, so its time_check escapes.
AlphaBetaPlayer.get_move, by contrast, always returns a move under the
same starved observer: its only timer checks run inside the try block. -/
theorem minimax_get_move_lets_searchtimeout_escape :
    MinimaxPlayer.get_move zeroScore (constObs 0) (19 / 2) leafBoard 3 t0
      = (Except.error Err.timeout, Trace.mk 1 0 0 0)
    ∧ ∀ (b : Board) (fuel : Nat) (t : Trace),
        ∃ r, (AlphaBetaPlayer.get_move zeroScore (constObs 0) (19 / 2)
          b fuel t).1 = Except.ok r := by
  constructor
  · norm_num [MinimaxPlayer.get_move, MinimaxPlayer.terminal_test, time_check,
      mbind, mpure, catchTimeout, constObs, t0, leafBoard]
  · intro b fuel t
    have hloop : ∀ (t2 : Trace) (best : Move),
        ∃ r, (AlphaBetaPlayer.loop zeroScore (constObs 0) (19 / 2)
          b fuel 1 best t2).1 = Except.ok r := by
      intro t2 best
      cases fuel with
      | zero => exact ⟨none, by simp [AlphaBetaPlayer.loop, mpure]⟩
      | succ fuel2 =>
          refine ⟨some best, ?_⟩
          norm_num [AlphaBetaPlayer.loop, AlphaBetaPlayer.alphabeta,
            noteSearch, time_check, mbind, constObs]
    unfold AlphaBetaPlayer.get_move
    by_cases hmc : b.moveCount = 0 ∨ b.moveCount = 1
    · rw [if_pos hmc]
      by_cases hmem : (((b.width / 2 : Nat) : Int), ((b.height / 2 : Nat) : Int)) ∈ b.legalMoves
      · rw [if_pos hmem]
        exact ⟨_, rfl⟩
      · rw [if_neg hmem]
        exact hloop t sentinel
    · rw [if_neg hmc]
      exact hloop t sentinel

/-- Claim C4 (code_bug evidence): on a state with no legal moves,
MinimaxPlayer.minimax raises ValueError (Python max() of an empty
sequence) for every depth, observer and threshold, instead of returning
the sentinel its own docstring promises. -/
theorem minimax_no_moves_raises_valueerror :
    ∀ (score : Board → Score) (obs : Nat → ℚ) (thr : ℚ) (d : Int)
      (t : Trace),
      MinimaxPlayer.minimax score obs thr leafBoard d t
        = (Except.error Err.valueError,
           Trace.mk t.checks t.forecasts t.evals (t.searches + 1))
      ∧ leafBoard.legalMoves = [] := by
  intro score obs thr d t
  constructor
  · simp [MinimaxPlayer.minimax, leafBoard, Board.children, noteSearch,
      mthrow, mbind]
  · simp [leafBoard, Board.legalMoves, Board.children]

/-- Claim C5 counterexample: at depth 0 on a state with no legal moves,
the alpha-beta min_value and max_value call the injected evaluator and
return its (finite) value, not the decisive +inf / -inf: the depth test
precedes the no-legal-moves test. -/
theorem ab_leaf_depth0_calls_evaluator :
    AlphaBetaPlayer.min_value fortyTwoScore (constObs 100) (19 / 2)
        leafBoard 0 (⊥ : Score) (⊤ : Score) t0
      = (Except.ok (Score.ofQ 42), Trace.mk 1 0 1 0)
    ∧ AlphaBetaPlayer.max_value fortyTwoScore (constObs 100) (19 / 2)
        leafBoard 0 (⊥ : Score) (⊤ : Score) t0
      = (Except.ok (Score.ofQ 42), Trace.mk 1 0 1 0)
    ∧ decide (Score.ofQ 42 = (⊤ : Score)) = false
    ∧ decide (Score.ofQ 42 = (⊥ : Score)) = false
    ∧ t0.evals = 0 := by
  refine ⟨?_, ?_, by decide, by decide, rfl⟩
  · norm_num [AlphaBetaPlayer.min_value, time_check, callScore, mbind,
      constObs, t0, fortyTwoScore]
  · norm_num [AlphaBetaPlayer.max_value, time_check, callScore, mbind,
      constObs, t0, fortyTwoScore]

/-- Claim C5 as amended: at every nonzero depth, on a state where the
player to move has no legal moves, the alpha-beta min_value returns +inf
and max_value returns -inf, without calling the injected evaluator (only
the timer-check counter advances); at depth 0 the evaluator is called
instead. -/
theorem ab_no_moves_decisive_without_evaluator :
    ∀ (score : Board → Score) (obs : Nat → ℚ) (thr : ℚ) (b : Board)
      (d : Int) (a beta : Score) (t : Trace),
      b.legalMoves.isEmpty = true → d ≠ 0 → ¬ obs t.checks < thr →
      AlphaBetaPlayer.min_value score obs thr b d a beta t
        = (Except.ok (⊤ : Score),
           Trace.mk (t.checks + 1) t.forecasts t.evals t.searches)
      ∧ AlphaBetaPlayer.max_value score obs thr b d a beta t
        = (Except.ok (⊥ : Score),
           Trace.mk (t.checks + 1) t.forecasts t.evals t.searches) := by
  intro score obs thr b d a beta t hemp hd hobs
  constructor
  · simp [AlphaBetaPlayer.min_value, time_check, mbind, mpure, hemp, hd, hobs]
  · simp [AlphaBetaPlayer.max_value, time_check, mbind, mpure, hemp, hd, hobs]

/-- Witness for the amended claim C5 at a concrete input. -/
theorem ab_no_moves_decisive_without_evaluator_witness :
    AlphaBetaPlayer.min_value zeroScore (constObs 100) (19 / 2)
        leafBoard 1 (⊥ : Score) (⊤ : Score) t0
      = (Except.ok (⊤ : Score),
         Trace.mk (t0.checks + 1) t0.forecasts t0.evals t0.searches)
    ∧ AlphaBetaPlayer.max_value zeroScore (constObs 100) (19 / 2)
        leafBoard 1 (⊥ : Score) (⊤ : Score) t0
      = (Except.ok (⊥ : Score),
         Trace.mk (t0.checks + 1) t0.forecasts t0.evals t0.searches) :=
  ab_no_moves_decisive_without_evaluator zeroScore (constObs 100) (19 / 2)
    leafBoard 1 (⊥ : Score) (⊤ : Score) t0
    (by simp [leafBoard, Board.legalMoves, Board.children])
    (by decide)
    (by norm_num [constObs, t0])

/-- Claim C6 counterexample: on a non-square opening board (width 5,
height 3, move count 0) whose only legal move is the exact board-center
cell (height // 2, width // 2) = (1, 2), AlphaBetaPlayer.get_move does
not return the center: the code builds the opening move with width and
height swapped, (width // 2, height // 2) = (2, 1), which is not legal
here, so the search runs instead (and under a starved observer the
sentinel comes back). -/
theorem get_move_opening_center_swapped :
    AlphaBetaPlayer.get_move zeroScore (constObs 0) (19 / 2)
        centerOnlyBoard 1 t0
      = (Except.ok (some sentinel), Trace.mk 1 0 0 1)
    ∧ centerOnlyBoard.moveCount = 0
    ∧ ((1 : Int), (2 : Int)) ∈ centerOnlyBoard.legalMoves
    ∧ (((centerOnlyBoard.height / 2 : Nat) : Int),
       ((centerOnlyBoard.width / 2 : Nat) : Int)) = ((1 : Int), (2 : Int))
    ∧ decide ((some sentinel : Option Move)
        = some ((1 : Int), (2 : Int))) = false := by
  refine ⟨?_, rfl, ?_, by decide, by decide⟩
  · norm_num [AlphaBetaPlayer.get_move, AlphaBetaPlayer.loop,
      AlphaBetaPlayer.alphabeta, noteSearch, time_check, mbind, mpure,
      centerOnlyBoard, Board.legalMoves, Board.children, Board.moveCount,
      Board.width, Board.height, constObs, t0, sentinel]
  · simp [centerOnlyBoard, Board.legalMoves, Board.children]

/-- Claim C6 as amended: on the first or second ply, when the cell
(width // 2, height // 2) - the exact board-center only on square boards -
is a legal move of the active player, AlphaBetaPlayer.get_move returns
that cell immediately, leaving the instrumentation trace untouched
(no alphabeta invocation, no evaluator call, no timer check). -/
theorem get_move_opening_book :
    ∀ (score : Board → Score) (obs : Nat → ℚ) (thr : ℚ) (b : Board)
      (fuel : Nat) (t : Trace),
      (b.moveCount = 0 ∨ b.moveCount = 1) →
      (((b.width / 2 : Nat) : Int), ((b.height / 2 : Nat) : Int)) ∈
        b.legalMoves →
      AlphaBetaPlayer.get_move score obs thr b fuel t
        = (Except.ok (some (((b.width / 2 : Nat) : Int),
            ((b.height / 2 : Nat) : Int))), t) := by
  intro score obs thr b fuel t hmc hmem
  unfold AlphaBetaPlayer.get_move
  rw [if_pos hmc, if_pos hmem]
  rfl

/-- Witness for the amended claim C6 at a concrete input. -/
theorem get_move_opening_book_witness :
    AlphaBetaPlayer.get_move zeroScore (constObs 0) (19 / 2)
        swappedCenterBoard 1 t0
      = (Except.ok (some (((swappedCenterBoard.width / 2 : Nat) : Int),
          ((swappedCenterBoard.height / 2 : Nat) : Int))), t0) :=
  get_move_opening_book zeroScore (constObs 0) (19 / 2) swappedCenterBoard
    1 t0 (Or.inl rfl) (by decide)

/-- Claim C7 counterexample: on a 3 by 3 board, a state whose only legal
move is the exact center (1, 1) scores exactly 200 under custom_score_2,
and so does a state whose only legal move is the far corner (2, 2) - the
distances (width // 2 - column) and (height // 2 - row) are negative
there, are clamped to 0.01, and contribute 100 each - so the center state
does not score strictly higher than every corner state. -/
theorem custom_score_2_far_corner_ties_center :
    custom_score_2 gCenter33 = Score.ofQ 200
    ∧ custom_score_2 gFarCorner33 = Score.ofQ 200
    ∧ decide (Score.ofQ 200 < Score.ofQ 200) = false
    ∧ ((2 : Int), (2 : Int))
      = ((gFarCorner33.height : Int) - 1, (gFarCorner33.width : Int) - 1) := by
  refine ⟨?_, ?_, by decide, by decide⟩
  · norm_num [custom_score_2, gCenter33, Score.ofQ]
  · norm_num [custom_score_2, gFarCorner33, Score.ofQ]

/-- Claim C8 counterexample: custom_score reflects a move (row, column)
to (width - 1 - row, height - 1 - column), not to the point reflection
(height - 1 - row, width - 1 - column) stated by the claim; on a
width-5, height-3 board with our move (2, 4) and opponent move (0, 0)
the two formulas disagree: the source function counts the move
(reflection (2, -2) is no opponent move) and scores 0, the claim formula
does not count it (reflection (0, 0) is an opponent move) and scores -1. -/
theorem custom_score_reflection_swapped :
    custom_score gReflect = Score.ofQ 0
    ∧ claimReflectionScore gReflect = Score.ofQ (-1)
    ∧ decide (Score.ofQ 0 = Score.ofQ (-1)) = false := by
  refine ⟨?_, ?_, by decide⟩
  · norm_num [custom_score, gReflect, Score.ofQ]
  · norm_num [claimReflectionScore, gReflect, Score.ofQ]

/-- Claim C8 as amended: on every non-terminal evaluator state,
custom_score returns exactly the square of the number of distinct own
legal moves whose cell (width - 1 - row, height - 1 - column) is not an
opponent legal move, minus the number of opponent legal moves. -/
theorem custom_score_asymmetric_mobility :
    ∀ g : EvalState, g.isLoser = false → g.isWinner = false →
      custom_score g = Score.ofQ
        (((((g.ourMoves.filter (fun mv =>
            decide (((g.width : Int) - 1 - mv.1,
              (g.height : Int) - 1 - mv.2) ∉ g.oppMoves))).dedup.length :
              Int) ^ 2
          - (g.oppMoves.length : Int) : Int) : ℚ)) := by
  intro g hL hW
  simp [custom_score, hL, hW]

/-- Witness for the amended claim C8 at a concrete input. -/
theorem custom_score_asymmetric_mobility_witness :
    custom_score gReflect = Score.ofQ
      (((((gReflect.ourMoves.filter (fun mv =>
          decide (((gReflect.width : Int) - 1 - mv.1,
            (gReflect.height : Int) - 1 - mv.2) ∉ gReflect.oppMoves))).dedup.length :
            Int) ^ 2
        - (gReflect.oppMoves.length : Int) : Int) : ℚ)) :=
  custom_score_asymmetric_mobility gReflect rfl rfl

/-- Claim C9 counterexample: MinimaxPlayer.minimax does not perform the
timeout check before any other work - with the observer starved from the
start it still calls get_legal_moves and forecast_move on the first legal
move before the first timer check (inside min_value) raises: the trace
of the raised SearchTimeout records one forecast_move call. -/
theorem minimax_forecasts_before_first_check :
    MinimaxPlayer.minimax zeroScore (constObs 0) (19 / 2) oneMoveBoard 3 t0
      = (Except.error Err.timeout, Trace.mk 1 1 0 1)
    ∧ (Trace.mk 1 1 0 1).forecasts = 1
    ∧ t0.forecasts = 0 := by
  refine ⟨?_, rfl, rfl⟩
  norm_num [MinimaxPlayer.minimax, MinimaxPlayer.min_value,
    MinimaxPlayer.terminal_test, noteSearch, noteForecast, time_check,
    mbind, mpure, oneMoveBoard, leafBoard, Board.children, constObs, t0]

/-- Claim C9 as amended: the recursive search functions other than
MinimaxPlayer.minimax - both min_value and max_value of MinimaxPlayer
(through terminal_test) and min_value, max_value and alphabeta of
AlphaBetaPlayer - perform the timeout check before any other work: when
the observer reads below TIMER_THRESHOLD at entry they raise
SearchTimeout with only the timer-check counter advanced (alphabeta also
counts its own invocation), in particular without calling forecast_move
or the evaluator. -/
theorem search_functions_check_timer_first :
    ∀ (score : Board → Score) (obs : Nat → ℚ) (thr : ℚ) (b : Board)
      (d : Int) (a beta : Score) (t : Trace),
      obs t.checks < thr →
      MinimaxPlayer.min_value score obs thr b d t
        = (Except.error Err.timeout,
           Trace.mk (t.checks + 1) t.forecasts t.evals t.searches)
      ∧ MinimaxPlayer.max_value score obs thr b d t
        = (Except.error Err.timeout,
           Trace.mk (t.checks + 1) t.forecasts t.evals t.searches)
      ∧ AlphaBetaPlayer.min_value score obs thr b d a beta t
        = (Except.error Err.timeout,
           Trace.mk (t.checks + 1) t.forecasts t.evals t.searches)
      ∧ AlphaBetaPlayer.max_value score obs thr b d a beta t
        = (Except.error Err.timeout,
           Trace.mk (t.checks + 1) t.forecasts t.evals t.searches)
      ∧ AlphaBetaPlayer.alphabeta score obs thr b d a beta t
        = (Except.error Err.timeout,
           Trace.mk (t.checks + 1) t.forecasts t.evals (t.searches + 1)) := by
  intro score obs thr b d a beta t hobs
  refine ⟨?_, ?_, ?_, ?_, ?_⟩
  · simp [MinimaxPlayer.min_value, MinimaxPlayer.terminal_test, time_check,
      mbind, hobs]
  · simp [MinimaxPlayer.max_value, MinimaxPlayer.terminal_test, time_check,
      mbind, hobs]
  · simp [AlphaBetaPlayer.min_value, time_check, mbind, hobs]
  · simp [AlphaBetaPlayer.max_value, time_check, mbind, hobs]
  · simp [AlphaBetaPlayer.alphabeta, noteSearch, time_check, mbind, hobs]

/-- Witness for the amended claim C9 at a concrete input. -/
theorem search_functions_check_timer_first_witness :
    MinimaxPlayer.min_value zeroScore (constObs 0) (19 / 2) oneMoveBoard 3 t0
      = (Except.error Err.timeout,
         Trace.mk (t0.checks + 1) t0.forecasts t0.evals t0.searches)
    ∧ MinimaxPlayer.max_value zeroScore (constObs 0) (19 / 2) oneMoveBoard 3 t0
      = (Except.error Err.timeout,
         Trace.mk (t0.checks + 1) t0.forecasts t0.evals t0.searches)
    ∧ AlphaBetaPlayer.min_value zeroScore (constObs 0) (19 / 2) oneMoveBoard 3
        (⊥ : Score) (⊤ : Score) t0
      = (Except.error Err.timeout,
         Trace.mk (t0.checks + 1) t0.forecasts t0.evals t0.searches)
    ∧ AlphaBetaPlayer.max_value zeroScore (constObs 0) (19 / 2) oneMoveBoard 3
        (⊥ : Score) (⊤ : Score) t0
      = (Except.error Err.timeout,
         Trace.mk (t0.checks + 1) t0.forecasts t0.evals t0.searches)
    ∧ AlphaBetaPlayer.alphabeta zeroScore (constObs 0) (19 / 2) oneMoveBoard 3
        (⊥ : Score) (⊤ : Score) t0
      = (Except.error Err.timeout,
         Trace.mk (t0.checks + 1) t0.forecasts t0.evals (t0.searches + 1)) :=
  search_functions_check_timer_first zeroScore (constObs 0) (19 / 2)
    oneMoveBoard 3 (⊥ : Score) (⊤ : Score) t0 (by norm_num [constObs, t0])

theorem driverOutcome_cons (best mv : Move) (l : List Move) (t : Trace)
    (e : Option Err) :
    driverOutcome best (mv :: l, t, e) = driverOutcome mv (l, t, e) := by
  cases e with
  | none => rfl
  | some e2 =>
      cases e2 with
      | timeout =>
          simp only [driverOutcome]
          rw [List.getLastD_cons]
      | valueError => rfl

/-- Claim C3: the iterative-deepening loop of AlphaBetaPlayer.get_move
realizes the spec driver: from depth d it calls alphabeta at depths
d, d + 1, ... (get_move enters at depth 1 with the sentinel when the
opening book does not fire), and it returns exactly the result of the
last alphabeta call that ran to completion - the initial best move (the
sentinel at top level) when none completed.  An iteration aborted by
SearchTimeout contributes nothing to the result (driverRuns discards it),
and any other exception propagates. -/
theorem iterative_deepening_returns_last_completed :
    ∀ (score : Board → Score) (obs : Nat → ℚ) (thr : ℚ) (b : Board),
      (∀ (fuel : Nat) (d : Int) (best : Move) (t : Trace),
        AlphaBetaPlayer.loop score obs thr b fuel d best t
          = driverOutcome best (driverRuns score obs thr b fuel d t))
      ∧ (∀ (fuel : Nat) (t : Trace),
          ¬ (b.moveCount = 0 ∨ b.moveCount = 1) →
          AlphaBetaPlayer.get_move score obs thr b fuel t
            = AlphaBetaPlayer.loop score obs thr b fuel 1 sentinel t) := by
  intro score obs thr b
  constructor
  · intro fuel
    induction fuel with
    | zero =>
        intro d best t
        simp [AlphaBetaPlayer.loop, driverRuns, driverOutcome, mpure]
    | succ fuel2 ih =>
        intro d best t
        rw [AlphaBetaPlayer.loop, driverRuns]
        cases h : AlphaBetaPlayer.alphabeta score obs thr b d (⊥ : Score)
            (⊤ : Score) t with
        | mk fst t2 =>
          cases fst with
          | ok mv =>
              simp only [h, ih]
              rcases hdr : driverRuns score obs thr b fuel2 (d + 1) t2 with
                ⟨l2, t3, e⟩
              exact (driverOutcome_cons best mv l2 t3 e).symm
          | error e =>
              cases e with
              | timeout =>
                  simp only [h, driverOutcome]
                  rfl
              | valueError => simp only [h, driverOutcome]
  · intro fuel t hmc
    unfold AlphaBetaPlayer.get_move
    rw [if_neg hmc]

/-- Witness for claim C3 at a concrete input. -/
theorem iterative_deepening_returns_last_completed_witness :
    (AlphaBetaPlayer.loop zeroScore (constObs 0) (19 / 2) oneMoveBoard 1 1
        sentinel t0
      = driverOutcome sentinel
          (driverRuns zeroScore (constObs 0) (19 / 2) oneMoveBoard 1 1 t0))
    ∧ (AlphaBetaPlayer.get_move zeroScore (constObs 0) (19 / 2) oneMoveBoard
        1 t0
      = AlphaBetaPlayer.loop zeroScore (constObs 0) (19 / 2) oneMoveBoard 1 1
          sentinel t0) :=
  And.intro
    ((iterative_deepening_returns_last_completed zeroScore (constObs 0)
      (19 / 2) oneMoveBoard).1 1 1 sentinel t0)
    ((iterative_deepening_returns_last_completed zeroScore (constObs 0)
      (19 / 2) oneMoveBoard).2 1 t0 (by decide))

theorem sizeOf_children_lt (b : Board) : sizeOf b.children < sizeOf b := by
  cases b with
  | mk cs mc w h => simp [Board.children]; omega

theorem sizeOf_child_lt (m : Move) (c : Board) (rest : List (Move × Board)) :
    sizeOf c < sizeOf ((m, c) :: rest) := by
  simp only [List.cons.sizeOf_spec, Prod.mk.sizeOf_spec]
  omega

theorem sizeOf_rest_lt (p : Move × Board) (rest : List (Move × Board)) :
    sizeOf rest < sizeOf (p :: rest) := by
  simp only [List.cons.sizeOf_spec]
  omega

theorem time_check_ok {obs : Nat → ℚ} {thr : ℚ} (hno : noTimeout obs thr)
    (t : Trace) :
    time_check obs thr t
      = (Except.ok (),
         Trace.mk (t.checks + 1) t.forecasts t.evals t.searches) := by
  simp [time_check, hno t.checks]

/-- Under a never-expiring observer, the value computed by the alpha-beta
search functions is the one of their pure projections, whatever the
starting trace. -/
theorem ab_bridge (score : Board → Score) (obs : Nat → ℚ) (thr : ℚ)
    (hno : noTimeout obs thr) :
    ∀ n : Nat,
      (∀ b : Board, sizeOf b ≤ n → ∀ (d : Int) (a beta : Score) (t : Trace),
        (AlphaBetaPlayer.min_value score obs thr b d a beta t).1
          = Except.ok (pureABmin score b d a beta))
      ∧ (∀ b : Board, sizeOf b ≤ n → ∀ (d : Int) (a beta : Score) (t : Trace),
        (AlphaBetaPlayer.max_value score obs thr b d a beta t).1
          = Except.ok (pureABmax score b d a beta))
      ∧ (∀ cs : List (Move × Board), sizeOf cs ≤ n →
          ∀ (d : Int) (a beta v : Score) (t : Trace),
          (AlphaBetaPlayer.minLoop score obs thr cs d a beta v t).1
            = Except.ok (pureABminLoop score cs d a beta v))
      ∧ (∀ cs : List (Move × Board), sizeOf cs ≤ n →
          ∀ (d : Int) (a beta v : Score) (t : Trace),
          (AlphaBetaPlayer.maxLoop score obs thr cs d a beta v t).1
            = Except.ok (pureABmaxLoop score cs d a beta v)) := by
  intro n
  induction n using Nat.strong_induction_on with
  | _ n ih =>
    refine ⟨?_, ?_, ?_, ?_⟩
    · intro b hb d a beta t
      have hcs : sizeOf b.children < n :=
        lt_of_lt_of_le (sizeOf_children_lt b) hb
      simp only [AlphaBetaPlayer.min_value, pureABmin, mbind,
        time_check_ok hno]
      by_cases hd : d = 0
      · simp [hd, callScore]
      · by_cases hemp : b.legalMoves.isEmpty
        · simp [hd, hemp, mpure]
        · simp only [hd, hemp, if_false, Bool.false_eq_true]
          exact (ih (n - 1) (by omega)).2.2.1 b.children (by omega) d a beta
            (⊤ : Score) _
    · intro b hb d a beta t
      have hcs : sizeOf b.children < n :=
        lt_of_lt_of_le (sizeOf_children_lt b) hb
      simp only [AlphaBetaPlayer.max_value, pureABmax, mbind,
        time_check_ok hno]
      by_cases hd : d = 0
      · simp [hd, callScore]
      · by_cases hemp : b.legalMoves.isEmpty
        · simp [hd, hemp, mpure]
        · simp only [hd, hemp, if_false, Bool.false_eq_true]
          exact (ih (n - 1) (by omega)).2.2.2 b.children (by omega) d a beta
            (⊥ : Score) _
    · intro cs hcs d a beta v t
      cases cs with
      | nil => simp [AlphaBetaPlayer.minLoop, pureABminLoop, mpure]
      | cons p rest =>
          obtain ⟨m, c⟩ := p
          have hc : sizeOf c < n :=
            lt_of_lt_of_le (sizeOf_child_lt m c rest) hcs
          have hrest : sizeOf rest < n :=
            lt_of_lt_of_le (sizeOf_rest_lt (m, c) rest) hcs
          have hnf : noteForecast t = (Except.ok (),
              Trace.mk t.checks (t.forecasts + 1) t.evals t.searches) := rfl
          rcases hx : AlphaBetaPlayer.max_value score obs thr c (d - 1) a beta
              (Trace.mk t.checks (t.forecasts + 1) t.evals t.searches) with
            ⟨fst, t3⟩
          have hfst : fst
              = Except.ok (pureABmax score c (d - 1) a beta) := by
            have h2 := (ih (n - 1) (by omega)).2.1 c (by omega) (d - 1) a beta
              (Trace.mk t.checks (t.forecasts + 1) t.evals t.searches)
            rw [hx] at h2
            exact h2
          subst hfst
          simp only [AlphaBetaPlayer.minLoop, pureABminLoop, mbind, hnf, hx]
          by_cases hle : min v (pureABmax score c (d - 1) a beta) ≤ a
          · simp [hle, mpure]
          · simp only [hle, if_false]
            exact (ih (n - 1) (by omega)).2.2.1 rest (by omega) d a _ _ _
    · intro cs hcs d a beta v t
      cases cs with
      | nil => simp [AlphaBetaPlayer.maxLoop, pureABmaxLoop, mpure]
      | cons p rest =>
          obtain ⟨m, c⟩ := p
          have hc : sizeOf c < n :=
            lt_of_lt_of_le (sizeOf_child_lt m c rest) hcs
          have hrest : sizeOf rest < n :=
            lt_of_lt_of_le (sizeOf_rest_lt (m, c) rest) hcs
          have hnf : noteForecast t = (Except.ok (),
              Trace.mk t.checks (t.forecasts + 1) t.evals t.searches) := rfl
          rcases hx : AlphaBetaPlayer.min_value score obs thr c (d - 1) a beta
              (Trace.mk t.checks (t.forecasts + 1) t.evals t.searches) with
            ⟨fst, t3⟩
          have hfst : fst
              = Except.ok (pureABmin score c (d - 1) a beta) := by
            have h2 := (ih (n - 1) (by omega)).1 c (by omega) (d - 1) a beta
              (Trace.mk t.checks (t.forecasts + 1) t.evals t.searches)
            rw [hx] at h2
            exact h2
          subst hfst
          simp only [AlphaBetaPlayer.maxLoop, pureABmaxLoop, mbind, hnf, hx]
          by_cases hle : beta ≤ max v (pureABmin score c (d - 1) a beta)
          · simp [hle, mpure]
          · simp only [hle, if_false]
            exact (ih (n - 1) (by omega)).2.2.2 rest (by omega) d _ beta _ _

/-- Under a never-expiring observer, the root loop of alphabeta returns
the move selected by its pure projection. -/
theorem root_bridge (score : Board → Score) (obs : Nat → ℚ) (thr : ℚ)
    (hno : noTimeout obs thr) :
    ∀ (cs : List (Move × Board)) (d : Int) (a beta bs : Score)
      (best : Move) (t : Trace),
      (AlphaBetaPlayer.rootLoop score obs thr cs d a beta bs best t).1
        = Except.ok ((pureABrootLoop score cs d a beta bs best).1) := by
  intro cs
  induction cs with
  | nil =>
      intro d a beta bs best t
      simp [AlphaBetaPlayer.rootLoop, pureABrootLoop, mpure]
  | cons p rest ih =>
      intro d a beta bs best t
      obtain ⟨m, c⟩ := p
      have hnf : noteForecast t = (Except.ok (),
          Trace.mk t.checks (t.forecasts + 1) t.evals t.searches) := rfl
      rcases hx : AlphaBetaPlayer.min_value score obs thr c (d - 1) a beta
          (Trace.mk t.checks (t.forecasts + 1) t.evals t.searches) with
        ⟨fst, t3⟩
      have hfst : fst = Except.ok (pureABmin score c (d - 1) a beta) := by
        have h2 := (ab_bridge score obs thr hno (sizeOf c)).1 c le_rfl
          (d - 1) a beta (Trace.mk t.checks (t.forecasts + 1) t.evals t.searches)
        rw [hx] at h2
        exact h2
      subst hfst
      simp only [AlphaBetaPlayer.rootLoop, pureABrootLoop, mbind, hnf, hx]
      by_cases hlt : bs < pureABmin score c (d - 1) a beta
      · simp only [hlt, if_true]
        exact ih _ _ _ _ _ _
      · simp only [hlt, if_false]
        exact ih _ _ _ _ _ _

/-- Under a never-expiring observer, alphabeta returns the move of its
pure projection. -/
theorem alphabeta_bridge (score : Board → Score) (obs : Nat → ℚ) (thr : ℚ)
    (hno : noTimeout obs thr) (b : Board) (d : Int) (a beta : Score)
    (t : Trace) :
    (AlphaBetaPlayer.alphabeta score obs thr b d a beta t).1
      = Except.ok ((pureABroot score b d a beta).1) := by
  have hns : noteSearch t = (Except.ok (),
      Trace.mk t.checks t.forecasts t.evals (t.searches + 1)) := rfl
  simp only [AlphaBetaPlayer.alphabeta, pureABroot, mbind, hns,
    time_check_ok hno]
  by_cases hemp : b.legalMoves.isEmpty
  · simp [hemp, mpure, sentinel]
  · simp only [hemp, if_false, Bool.false_eq_true]
    exact root_bridge score obs thr hno b.children d a beta (⊥ : Score)
      sentinel _

/-- Under a never-expiring observer, the value computed by the minimax
value functions is the one of their pure projections. -/
theorem mm_bridge (score : Board → Score) (obs : Nat → ℚ) (thr : ℚ)
    (hno : noTimeout obs thr) :
    ∀ n : Nat,
      (∀ b : Board, sizeOf b ≤ n → ∀ (d : Int) (t : Trace),
        (MinimaxPlayer.min_value score obs thr b d t).1
          = Except.ok (pureMMmin score b d))
      ∧ (∀ b : Board, sizeOf b ≤ n → ∀ (d : Int) (t : Trace),
        (MinimaxPlayer.max_value score obs thr b d t).1
          = Except.ok (pureMMmax score b d))
      ∧ (∀ cs : List (Move × Board), sizeOf cs ≤ n →
          ∀ (d : Int) (v : Score) (t : Trace),
          (MinimaxPlayer.minLoop score obs thr cs d v t).1
            = Except.ok (pureMMminLoop score cs d v))
      ∧ (∀ cs : List (Move × Board), sizeOf cs ≤ n →
          ∀ (d : Int) (v : Score) (t : Trace),
          (MinimaxPlayer.maxLoop score obs thr cs d v t).1
            = Except.ok (pureMMmaxLoop score cs d v)) := by
  intro n
  induction n using Nat.strong_induction_on with
  | _ n ih =>
    refine ⟨?_, ?_, ?_, ?_⟩
    · intro b hb d t
      have hcs : sizeOf b.children < n :=
        lt_of_lt_of_le (sizeOf_children_lt b) hb
      simp only [MinimaxPlayer.min_value, pureMMmin,
        MinimaxPlayer.terminal_test, mbind, mpure, time_check_ok hno]
      by_cases hemp : b.legalMoves.isEmpty
      · simp [hemp, mpure]
      · by_cases hd : d = 0
        · simp [hemp, hd, callScore]
        · simp only [hemp, hd, if_false, Bool.false_eq_true]
          exact (ih (n - 1) (by omega)).2.2.1 b.children (by omega) d
            (⊤ : Score) _
    · intro b hb d t
      have hcs : sizeOf b.children < n :=
        lt_of_lt_of_le (sizeOf_children_lt b) hb
      simp only [MinimaxPlayer.max_value, pureMMmax,
        MinimaxPlayer.terminal_test, mbind, mpure, time_check_ok hno]
      by_cases hemp : b.legalMoves.isEmpty
      · simp [hemp, mpure]
      · by_cases hd : d = 0
        · simp [hemp, hd, callScore]
        · simp only [hemp, hd, if_false, Bool.false_eq_true]
          exact (ih (n - 1) (by omega)).2.2.2 b.children (by omega) d
            (⊥ : Score) _
    · intro cs hcs d v t
      cases cs with
      | nil => simp [MinimaxPlayer.minLoop, pureMMminLoop, mpure]
      | cons p rest =>
          obtain ⟨m, c⟩ := p
          have hc : sizeOf c < n :=
            lt_of_lt_of_le (sizeOf_child_lt m c rest) hcs
          have hrest : sizeOf rest < n :=
            lt_of_lt_of_le (sizeOf_rest_lt (m, c) rest) hcs
          have hnf : noteForecast t = (Except.ok (),
              Trace.mk t.checks (t.forecasts + 1) t.evals t.searches) := rfl
          rcases hx : MinimaxPlayer.max_value score obs thr c (d - 1)
              (Trace.mk t.checks (t.forecasts + 1) t.evals t.searches) with
            ⟨fst, t3⟩
          have hfst : fst = Except.ok (pureMMmax score c (d - 1)) := by
            have h2 := (ih (n - 1) (by omega)).2.1 c (by omega) (d - 1)
              (Trace.mk t.checks (t.forecasts + 1) t.evals t.searches)
            rw [hx] at h2
            exact h2
          subst hfst
          simp only [MinimaxPlayer.minLoop, pureMMminLoop, mbind, hnf, hx]
          exact (ih (n - 1) (by omega)).2.2.1 rest (by omega) d _ _
    · intro cs hcs d v t
      cases cs with
      | nil => simp [MinimaxPlayer.maxLoop, pureMMmaxLoop, mpure]
      | cons p rest =>
          obtain ⟨m, c⟩ := p
          have hc : sizeOf c < n :=
            lt_of_lt_of_le (sizeOf_child_lt m c rest) hcs
          have hrest : sizeOf rest < n :=
            lt_of_lt_of_le (sizeOf_rest_lt (m, c) rest) hcs
          have hnf : noteForecast t = (Except.ok (),
              Trace.mk t.checks (t.forecasts + 1) t.evals t.searches) := rfl
          rcases hx : MinimaxPlayer.min_value score obs thr c (d - 1)
              (Trace.mk t.checks (t.forecasts + 1) t.evals t.searches) with
            ⟨fst, t3⟩
          have hfst : fst = Except.ok (pureMMmin score c (d - 1)) := by
            have h2 := (ih (n - 1) (by omega)).1 c (by omega) (d - 1)
              (Trace.mk t.checks (t.forecasts + 1) t.evals t.searches)
            rw [hx] at h2
            exact h2
          subst hfst
          simp only [MinimaxPlayer.maxLoop, pureMMmaxLoop, mbind, hnf, hx]
          exact (ih (n - 1) (by omega)).2.2.2 rest (by omega) d _ _

theorem getD_zip (l1 : List Move) (l2 : List Score) (k : Nat)
    (hk : k < l1.length) (hlen : l1.length = l2.length) :
    (l1.zip l2).getD k (sentinel, (⊥ : Score))
      = (l1.getD k sentinel, l2.getD k (⊥ : Score)) := by
  induction l1 generalizing l2 k with
  | nil => simp at hk
  | cons a l1 ih =>
      cases l2 with
      | nil => simp at hlen
      | cons bb l2 =>
          cases k with
          | zero => simp [List.zip_cons_cons]
          | succ k =>
              simp only [List.zip_cons_cons, List.getD_cons_succ]
              exact ih l2 k (by simpa using hk) (by simpa using hlen)

theorem rootScores_length (score : Board → Score) :
    ∀ (cs : List (Move × Board)) (d : Int) (a beta : Score),
      (rootScores score cs d a beta).length = cs.length := by
  intro cs
  induction cs with
  | nil => intro d a beta; rfl
  | cons p rest ih =>
      intro d a beta
      obtain ⟨m, c⟩ := p
      simp only [rootScores, List.length_cons]
      rw [ih]

/-- The pure root loop is the strict-improvement fold over the pairs of
root moves and root scores. -/
theorem rootLoop_eq_argFold (score : Board → Score) :
    ∀ (cs : List (Move × Board)) (d : Int) (a beta bs : Score)
      (best : Move),
      pureABrootLoop score cs d a beta bs best
        = argFold ((cs.map Prod.fst).zip (rootScores score cs d a beta))
            bs best := by
  intro cs
  induction cs with
  | nil => intro d a beta bs best; rfl
  | cons p rest ih =>
      intro d a beta bs best
      obtain ⟨m, c⟩ := p
      simp only [pureABrootLoop, rootScores, List.map_cons,
        List.zip_cons_cons, argFold]
      by_cases hlt : bs < pureABmin score c (d - 1) a beta
      · simp only [hlt, if_true]
        exact ih d _ beta _ _
      · simp only [hlt, if_false]
        exact ih d _ beta _ _

/-- What the strict-improvement fold returns: either no pair ever
strictly beats the initial best score - then the initial pair comes back
unchanged - or the returned pair is the one at the first index attaining
the maximum: its score strictly exceeds every earlier score and weakly
dominates every score. -/
theorem argFold_spec :
    ∀ (ps : List (Move × Score)) (bs : Score) (best : Move),
      ((∀ j, j < ps.length → (ps.getD j (sentinel, (⊥ : Score))).2 ≤ bs)
        ∧ argFold ps bs best = (best, bs))
      ∨ (∃ k, k < ps.length
          ∧ argFold ps bs best = ps.getD k (sentinel, (⊥ : Score))
          ∧ bs < (ps.getD k (sentinel, (⊥ : Score))).2
          ∧ (∀ j, j < k →
              (ps.getD j (sentinel, (⊥ : Score))).2
                < (ps.getD k (sentinel, (⊥ : Score))).2)
          ∧ (∀ j, j < ps.length →
              (ps.getD j (sentinel, (⊥ : Score))).2
                ≤ (ps.getD k (sentinel, (⊥ : Score))).2)) := by
  intro ps
  induction ps with
  | nil =>
      intro bs best
      exact Or.inl ⟨fun j hj => by simp at hj, rfl⟩
  | cons p rest ih =>
      intro bs best
      obtain ⟨m, sv⟩ := p
      by_cases hlt : bs < sv
      · rcases ih sv m with ⟨hall, heq⟩ | ⟨k, hk, heq, hbs, hstrict, hmax⟩
        · refine Or.inr ⟨0, by simp, ?_, ?_, ?_, ?_⟩
          · simp only [argFold, hlt, if_true, heq, List.getD_cons_zero]
          · simpa [List.getD_cons_zero] using hlt
          · intro j hj; omega
          · intro j hj
            cases j with
            | zero => simp
            | succ j =>
                simp only [List.getD_cons_succ, List.getD_cons_zero]
                exact hall j (by simpa using hj)
        · refine Or.inr ⟨k + 1, by simpa using hk, ?_, ?_, ?_, ?_⟩
          · simp only [argFold, hlt, if_true, heq, List.getD_cons_succ]
          · simp only [List.getD_cons_succ]
            exact lt_trans hlt hbs
          · intro j hj
            cases j with
            | zero =>
                simp only [List.getD_cons_zero, List.getD_cons_succ]
                exact hbs
            | succ j =>
                simp only [List.getD_cons_succ]
                exact hstrict j (by omega)
          · intro j hj
            cases j with
            | zero =>
                simp only [List.getD_cons_zero, List.getD_cons_succ]
                exact le_of_lt hbs
            | succ j =>
                simp only [List.getD_cons_succ]
                exact hmax j (by simpa using hj)
      · rcases ih bs best with ⟨hall, heq⟩ | ⟨k, hk, heq, hbs, hstrict, hmax⟩
        · refine Or.inl ⟨?_, ?_⟩
          · intro j hj
            cases j with
            | zero => simpa [List.getD_cons_zero] using not_lt.mp hlt
            | succ j =>
                simp only [List.getD_cons_succ]
                exact hall j (by simpa using hj)
          · simp only [argFold, hlt, if_false, heq]
        · refine Or.inr ⟨k + 1, by simpa using hk, ?_, ?_, ?_, ?_⟩
          · simp only [argFold, hlt, if_false, heq, List.getD_cons_succ]
          · simp only [List.getD_cons_succ]
            exact hbs
          · intro j hj
            cases j with
            | zero =>
                simp only [List.getD_cons_zero, List.getD_cons_succ]
                exact lt_of_le_of_lt (not_lt.mp hlt) hbs
            | succ j =>
                simp only [List.getD_cons_succ]
                exact hstrict j (by omega)
          · intro j hj
            cases j with
            | zero =>
                simp only [List.getD_cons_zero, List.getD_cons_succ]
                exact le_of_lt (lt_of_le_of_lt (not_lt.mp hlt) hbs)
            | succ j =>
                simp only [List.getD_cons_succ]
                exact hmax j (by simpa using hj)

/-- Claim C10 counterexample: when every root score is -inf (here the
evaluator returns -inf on the only child), the strict-improvement update
never fires and alphabeta returns the sentinel (-1, -1) even though a
legal move exists - the returned move is not the first legal move. -/
theorem alphabeta_all_losing_returns_sentinel :
    AlphaBetaPlayer.alphabeta botScore (constObs 100) (19 / 2) oneMoveBoard 1
        (⊥ : Score) (⊤ : Score) t0
      = (Except.ok sentinel, Trace.mk 2 1 1 1)
    ∧ oneMoveBoard.legalMoves = [((0 : Int), (0 : Int))]
    ∧ decide (sentinel = ((0 : Int), (0 : Int))) = false := by
  refine ⟨?_, by simp [oneMoveBoard, Board.legalMoves, Board.children],
    by decide⟩
  norm_num [AlphaBetaPlayer.alphabeta, AlphaBetaPlayer.rootLoop,
    AlphaBetaPlayer.min_value, noteSearch, noteForecast, time_check,
    callScore, mbind, mpure, oneMoveBoard, leafBoard, Board.legalMoves,
    Board.children, constObs, t0, botScore, sentinel]

/-- Claim C10 as amended: with no timeout and at least one legal move,
the root loop of alphabeta (initial window (-inf, +inf)) scores every
legal root move - the root score list has exactly one entry per legal
move, no root sibling is ever pruned even after alpha tightens - and the
returned move is the one at the first index attaining the maximal root
score (its score strictly exceeds every earlier root score and weakly
dominates all of them) whenever some root score exceeds -inf; when every
root score equals -inf the best move is never updated and the sentinel
comes back despite legal moves existing. -/
theorem alphabeta_root_scores_every_move :
    ∀ (score : Board → Score) (obs : Nat → ℚ) (thr : ℚ) (b : Board)
      (d : Int) (t : Trace),
      noTimeout obs thr → b.legalMoves ≠ [] →
      (AlphaBetaPlayer.alphabeta score obs thr b d (⊥ : Score) (⊤ : Score)
          t).1
        = Except.ok ((pureABroot score b d (⊥ : Score) (⊤ : Score)).1)
      ∧ (rootScores score b.children d (⊥ : Score) (⊤ : Score)).length
        = b.legalMoves.length
      ∧ (((∀ j,
            j < (rootScores score b.children d (⊥ : Score)
                (⊤ : Score)).length →
            (rootScores score b.children d (⊥ : Score) (⊤ : Score)).getD j
              (⊥ : Score) = (⊥ : Score))
          ∧ (pureABroot score b d (⊥ : Score) (⊤ : Score)).1 = sentinel)
        ∨ (∃ k,
            k < (rootScores score b.children d (⊥ : Score)
                (⊤ : Score)).length
            ∧ (pureABroot score b d (⊥ : Score) (⊤ : Score)).1
              = b.legalMoves.getD k sentinel
            ∧ (∀ j, j < k →
                (rootScores score b.children d (⊥ : Score) (⊤ : Score)).getD
                    j (⊥ : Score)
                  < (rootScores score b.children d (⊥ : Score)
                      (⊤ : Score)).getD k (⊥ : Score))
            ∧ (∀ j,
                j < (rootScores score b.children d (⊥ : Score)
                    (⊤ : Score)).length →
                (rootScores score b.children d (⊥ : Score) (⊤ : Score)).getD
                    j (⊥ : Score)
                  ≤ (rootScores score b.children d (⊥ : Score)
                      (⊤ : Score)).getD k (⊥ : Score)))) := by
  intro score obs thr b d t hno hne
  have hemp : b.legalMoves.isEmpty = false := by
    cases hl : b.legalMoves with
    | nil => exact absurd hl hne
    | cons x xs => rfl
  have hlm : b.legalMoves = b.children.map Prod.fst := rfl
  have hlenm : b.legalMoves.length = b.children.length := by
    rw [hlm, List.length_map]
  have hslen : (rootScores score b.children d (⊥ : Score) (⊤ : Score)).length
      = b.children.length := rootScores_length score b.children d _ _
  have hroot : pureABroot score b d (⊥ : Score) (⊤ : Score)
      = argFold (b.legalMoves.zip
          (rootScores score b.children d (⊥ : Score) (⊤ : Score)))
        (⊥ : Score) sentinel := by
    simp only [pureABroot, hemp, Bool.false_eq_true, if_false]
    rw [rootLoop_eq_argFold score b.children d (⊥ : Score) (⊤ : Score)
      (⊥ : Score) sentinel, hlm]
  have hpl : (b.legalMoves.zip
      (rootScores score b.children d (⊥ : Score) (⊤ : Score))).length
      = (rootScores score b.children d (⊥ : Score) (⊤ : Score)).length := by
    rw [List.length_zip, hlenm, hslen, Nat.min_self]
  refine ⟨alphabeta_bridge score obs thr hno b d (⊥ : Score) (⊤ : Score) t,
    by rw [hslen, hlenm], ?_⟩
  rcases argFold_spec (b.legalMoves.zip
      (rootScores score b.children d (⊥ : Score) (⊤ : Score)))
      (⊥ : Score) sentinel with ⟨hall, heq⟩ | ⟨k, hk, heq, hbs, hstrict, hmax⟩
  · refine Or.inl ⟨?_, ?_⟩
    · intro j hj
      have hj2 : j < b.legalMoves.length := by omega
      have h3 := hall j (by omega)
      rw [getD_zip b.legalMoves _ j hj2 (by omega)] at h3
      exact le_bot_iff.mp h3
    · rw [hroot, heq]
  · refine Or.inr ⟨k, by omega, ?_, ?_, ?_⟩
    · rw [hroot, heq, getD_zip b.legalMoves _ k (by omega) (by omega)]
    · intro j hj
      have h3 := hstrict j hj
      rw [getD_zip b.legalMoves _ j (by omega) (by omega),
        getD_zip b.legalMoves _ k (by omega) (by omega)] at h3
      exact h3
    · intro j hj
      have h3 := hmax j (by omega)
      rw [getD_zip b.legalMoves _ j (by omega) (by omega),
        getD_zip b.legalMoves _ k (by omega) (by omega)] at h3
      exact h3

/-- Witness for the amended claim C10 at a concrete input. -/
theorem alphabeta_root_scores_every_move_witness :
    (AlphaBetaPlayer.alphabeta zeroScore (constObs 100) (19 / 2) oneMoveBoard
        1 (⊥ : Score) (⊤ : Score) t0).1
      = Except.ok ((pureABroot zeroScore oneMoveBoard 1 (⊥ : Score)
          (⊤ : Score)).1)
    ∧ (rootScores zeroScore oneMoveBoard.children 1 (⊥ : Score)
        (⊤ : Score)).length = oneMoveBoard.legalMoves.length
    ∧ (((∀ j,
          j < (rootScores zeroScore oneMoveBoard.children 1 (⊥ : Score)
              (⊤ : Score)).length →
          (rootScores zeroScore oneMoveBoard.children 1 (⊥ : Score)
            (⊤ : Score)).getD j (⊥ : Score) = (⊥ : Score))
        ∧ (pureABroot zeroScore oneMoveBoard 1 (⊥ : Score) (⊤ : Score)).1
          = sentinel)
      ∨ (∃ k,
          k < (rootScores zeroScore oneMoveBoard.children 1 (⊥ : Score)
              (⊤ : Score)).length
          ∧ (pureABroot zeroScore oneMoveBoard 1 (⊥ : Score) (⊤ : Score)).1
            = oneMoveBoard.legalMoves.getD k sentinel
          ∧ (∀ j, j < k →
              (rootScores zeroScore oneMoveBoard.children 1 (⊥ : Score)
                  (⊤ : Score)).getD j (⊥ : Score)
                < (rootScores zeroScore oneMoveBoard.children 1 (⊥ : Score)
                    (⊤ : Score)).getD k (⊥ : Score))
          ∧ (∀ j,
              j < (rootScores zeroScore oneMoveBoard.children 1 (⊥ : Score)
                  (⊤ : Score)).length →
              (rootScores zeroScore oneMoveBoard.children 1 (⊥ : Score)
                  (⊤ : Score)).getD j (⊥ : Score)
                ≤ (rootScores zeroScore oneMoveBoard.children 1 (⊥ : Score)
                    (⊤ : Score)).getD k (⊥ : Score)))) :=
  alphabeta_root_scores_every_move zeroScore (constObs 100) (19 / 2)
    oneMoveBoard 1 t0 (fun n => by norm_num [constObs])
    (by simp [oneMoveBoard, Board.legalMoves, Board.children])

theorem pureMMminLoop_decompose (score : Board → Score) :
    ∀ (cs : List (Move × Board)) (d : Int) (v : Score),
      pureMMminLoop score cs d v
        = min v (pureMMminLoop score cs d (⊤ : Score)) := by
  intro cs
  induction cs with
  | nil => intro d v; simp [pureMMminLoop]
  | cons p rest ih =>
      intro d v
      obtain ⟨m, c⟩ := p
      simp only [pureMMminLoop]
      rw [ih d (min v (pureMMmax score c (d - 1))),
        ih d (min (⊤ : Score) (pureMMmax score c (d - 1)))]
      simp [min_assoc]

theorem pureMMmaxLoop_decompose (score : Board → Score) :
    ∀ (cs : List (Move × Board)) (d : Int) (v : Score),
      pureMMmaxLoop score cs d v
        = max v (pureMMmaxLoop score cs d (⊥ : Score)) := by
  intro cs
  induction cs with
  | nil => intro d v; simp [pureMMmaxLoop]
  | cons p rest ih =>
      intro d v
      obtain ⟨m, c⟩ := p
      simp only [pureMMmaxLoop]
      rw [ih d (max v (pureMMmin score c (d - 1))),
        ih d (max (⊥ : Score) (pureMMmin score c (d - 1)))]
      simp [max_assoc]

theorem pureABminLoop_le (score : Board → Score) :
    ∀ (cs : List (Move × Board)) (d : Int) (a beta v : Score),
      pureABminLoop score cs d a beta v ≤ v := by
  intro cs
  induction cs with
  | nil => intro d a beta v; simp [pureABminLoop]
  | cons p rest ih =>
      intro d a beta v
      obtain ⟨m, c⟩ := p
      simp only [pureABminLoop]
      by_cases hbr : min v (pureABmax score c (d - 1) a beta) ≤ a
      · simp only [hbr, if_true]
        exact min_le_left v _
      · simp only [hbr, if_false]
        exact le_trans (ih d a _ _) (min_le_left v _)

theorem pureABmaxLoop_ge (score : Board → Score) :
    ∀ (cs : List (Move × Board)) (d : Int) (a beta v : Score),
      v ≤ pureABmaxLoop score cs d a beta v := by
  intro cs
  induction cs with
  | nil => intro d a beta v; simp [pureABmaxLoop]
  | cons p rest ih =>
      intro d a beta v
      obtain ⟨m, c⟩ := p
      simp only [pureABmaxLoop]
      by_cases hbr : beta ≤ max v (pureABmin score c (d - 1) a beta)
      · simp only [hbr, if_true]
        exact le_max_left v _
      · simp only [hbr, if_false]
        exact le_trans (le_max_left v _) (ih d _ beta _)

theorem contract_empty {score : Board → Score} {isMin : Bool} {b : Board}
    (h : ScoreContract score isMin b = true)
    (he : b.legalMoves.isEmpty = true) :
    score b = (if isMin then (⊤ : Score) else (⊥ : Score)) := by
  rw [ScoreContract] at h
  rcases Bool.and_eq_true_iff.mp h with ⟨h1, _⟩
  rw [he] at h1
  simpa using of_decide_eq_true (by simpa using h1)

theorem contract_children {score : Board → Score} {isMin : Bool} {b : Board}
    (h : ScoreContract score isMin b = true) :
    ScoreContractList score (!isMin) b.children = true := by
  rw [ScoreContract] at h
  exact (Bool.and_eq_true_iff.mp h).2

theorem contractList_cons {score : Board → Score} {isMin : Bool} {m : Move}
    {c : Board} {rest : List (Move × Board)}
    (h : ScoreContractList score isMin ((m, c) :: rest) = true) :
    ScoreContract score isMin c = true
      ∧ ScoreContractList score isMin rest = true := by
  rw [ScoreContractList] at h
  exact Bool.and_eq_true_iff.mp h

theorem km_props_of_eq {a beta r g : Score} (h : r = g) :
    (r ≤ a → g ≤ r) ∧ (beta ≤ r → r ≤ g)
      ∧ (a < r → r < beta → r = g) := by
  subst h
  exact ⟨fun _ => le_rfl, fun _ => le_rfl, fun _ _ => rfl⟩

theorem km_props_triv {a beta r : Score} :
    (r ≤ a → r ≤ r) ∧ (beta ≤ r → r ≤ r)
      ∧ (a < r → r < beta → True) :=
  ⟨fun _ => le_rfl, fun _ => le_rfl, fun _ _ => trivial⟩

/-- The Knuth-Moore style window bounds for this implementation: within a
non-degenerate window (alpha < beta) and for an evaluator satisfying the
spec terminal contract, the pure alpha-beta value fails low only above
the true minimax value, fails high only below it, and is exact inside
the window.  Stated for the min node, the max node, and both loops (the
loop statements are relative to the current loop arguments). -/
theorem km_pack (score : Board → Score) :
    ∀ n : Nat,
      (∀ b : Board, sizeOf b ≤ n → ScoreContract score true b = true →
        ∀ (d : Int) (a beta : Score), a < beta →
          (pureABmin score b d a beta ≤ a →
            pureMMmin score b d ≤ pureABmin score b d a beta)
          ∧ (beta ≤ pureABmin score b d a beta →
            pureABmin score b d a beta ≤ pureMMmin score b d)
          ∧ (a < pureABmin score b d a beta →
            pureABmin score b d a beta < beta →
            pureABmin score b d a beta = pureMMmin score b d))
      ∧ (∀ b : Board, sizeOf b ≤ n → ScoreContract score false b = true →
        ∀ (d : Int) (a beta : Score), a < beta →
          (pureABmax score b d a beta ≤ a →
            pureMMmax score b d ≤ pureABmax score b d a beta)
          ∧ (beta ≤ pureABmax score b d a beta →
            pureABmax score b d a beta ≤ pureMMmax score b d)
          ∧ (a < pureABmax score b d a beta →
            pureABmax score b d a beta < beta →
            pureABmax score b d a beta = pureMMmax score b d))
      ∧ (∀ cs : List (Move × Board), sizeOf cs ≤ n →
          ScoreContractList score false cs = true →
          ∀ (d : Int) (a beta v : Score), a < beta →
          (pureABminLoop score cs d a beta v ≤ a →
            pureMMminLoop score cs d v ≤ pureABminLoop score cs d a beta v)
          ∧ (beta ≤ pureABminLoop score cs d a beta v →
            pureABminLoop score cs d a beta v ≤ pureMMminLoop score cs d v)
          ∧ (a < pureABminLoop score cs d a beta v →
            pureABminLoop score cs d a beta v < beta →
            pureABminLoop score cs d a beta v = pureMMminLoop score cs d v))
      ∧ (∀ cs : List (Move × Board), sizeOf cs ≤ n →
          ScoreContractList score true cs = true →
          ∀ (d : Int) (a beta v : Score), a < beta →
          (pureABmaxLoop score cs d a beta v ≤ a →
            pureMMmaxLoop score cs d v ≤ pureABmaxLoop score cs d a beta v)
          ∧ (beta ≤ pureABmaxLoop score cs d a beta v →
            pureABmaxLoop score cs d a beta v ≤ pureMMmaxLoop score cs d v)
          ∧ (a < pureABmaxLoop score cs d a beta v →
            pureABmaxLoop score cs d a beta v < beta →
            pureABmaxLoop score cs d a beta v
              = pureMMmaxLoop score cs d v)) := by
  intro n
  induction n using Nat.strong_induction_on with
  | _ n ih =>
    refine ⟨?_, ?_, ?_, ?_⟩
    · intro b hb hcon d a beta hab
      have hch : sizeOf b.children < n :=
        lt_of_lt_of_le (sizeOf_children_lt b) hb
      by_cases hemp : b.legalMoves.isEmpty
      · have hsc : score b = (⊤ : Score) := by
          simpa using contract_empty hcon hemp
        by_cases hd : d = 0
        · simp only [pureABmin, pureMMmin, hd, if_true, hemp]
          exact km_props_of_eq (by rw [hsc])
        · simp only [pureABmin, pureMMmin, hd, hemp, if_true, if_false]
          exact km_props_triv
      · by_cases hd : d = 0
        · simp only [pureABmin, pureMMmin, hd, hemp, if_true, if_false,
            Bool.false_eq_true]
          exact km_props_triv
        · simp only [pureABmin, pureMMmin, hd, hemp, if_false,
            Bool.false_eq_true]
          exact (ih (n - 1) (by omega)).2.2.1 b.children (by omega)
            (contract_children hcon) d a beta (⊤ : Score) hab
    · intro b hb hcon d a beta hab
      have hch : sizeOf b.children < n :=
        lt_of_lt_of_le (sizeOf_children_lt b) hb
      by_cases hemp : b.legalMoves.isEmpty
      · have hsc : score b = (⊥ : Score) := by
          simpa using contract_empty hcon hemp
        by_cases hd : d = 0
        · simp only [pureABmax, pureMMmax, hd, if_true, hemp]
          exact km_props_of_eq (by rw [hsc])
        · simp only [pureABmax, pureMMmax, hd, hemp, if_true, if_false]
          exact km_props_triv
      · by_cases hd : d = 0
        · simp only [pureABmax, pureMMmax, hd, hemp, if_true, if_false,
            Bool.false_eq_true]
          exact km_props_triv
        · simp only [pureABmax, pureMMmax, hd, hemp, if_false,
            Bool.false_eq_true]
          exact (ih (n - 1) (by omega)).2.2.2 b.children (by omega)
            (contract_children hcon) d a beta (⊥ : Score) hab
    · intro cs hcs hcon d a beta v hab
      cases cs with
      | nil =>
          simp only [pureABminLoop, pureMMminLoop]
          exact km_props_triv
      | cons p rest =>
          obtain ⟨m, c⟩ := p
          obtain ⟨hc, hrest⟩ := contractList_cons hcon
          have hcsize : sizeOf c < n :=
            lt_of_lt_of_le (sizeOf_child_lt m c rest) hcs
          have hrsize : sizeOf rest < n :=
            lt_of_lt_of_le (sizeOf_rest_lt (m, c) rest) hcs
          obtain ⟨hC1, hC2, hC3⟩ := (ih (n - 1) (by omega)).2.1 c
            (by omega) hc (d - 1) a beta hab
          simp only [pureABminLoop, pureMMminLoop]
          rw [pureMMminLoop_decompose score rest d
            (min v (pureMMmax score c (d - 1)))]
          set w := pureABmax score c (d - 1) a beta with hw
          set gc := pureMMmax score c (d - 1) with hgc
          set MR := pureMMminLoop score rest d (⊤ : Score) with hMR
          by_cases hbr : min v w ≤ a
          · simp only [hbr, if_true]
            refine ⟨?_, ?_, ?_⟩
            · intro _
              by_cases hwa : w ≤ a
              · calc min (min v gc) MR ≤ min v gc := min_le_left _ _
                  _ ≤ min v w := min_le_min le_rfl (hC1 hwa)
              · push_neg at hwa
                have hvr : min v w = v := by
                  rcases min_cases v w with ⟨h1, _⟩ | ⟨h1, _⟩
                  · exact h1
                  · exact absurd (h1 ▸ hbr) (not_le.mpr hwa)
                rw [hvr]
                calc min (min v gc) MR ≤ min v gc := min_le_left _ _
                  _ ≤ v := min_le_left _ _
            · intro hbeta
              exact absurd hab (not_lt.mpr (le_trans hbeta hbr))
            · intro ha _
              exact absurd hbr (not_le.mpr ha)
          · have hbr2 : a < min v w := not_le.mp hbr
            have hav : a < v := lt_of_lt_of_le hbr2 (min_le_left _ _)
            have haw : a < w := lt_of_lt_of_le hbr2 (min_le_right _ _)
            simp only [hbr, if_false]
            have hab2 : a < min beta (min v w) := lt_min hab hbr2
            obtain ⟨hR1, hR2, hR3⟩ := (ih (n - 1) (by omega)).2.2.1 rest
              (by omega) hrest d a (min beta (min v w)) (min v w) hab2
            rw [pureMMminLoop_decompose score rest d (min v w), ← hMR]
              at hR1 hR2 hR3
            have hrle : pureABminLoop score rest d a (min beta (min v w))
                (min v w) ≤ min v w := pureABminLoop_le score rest d _ _ _
            set r := pureABminLoop score rest d a (min beta (min v w))
              (min v w) with hr
            refine ⟨?_, ?_, ?_⟩
            · intro hra
              have h4 := hR1 hra
              rcases min_le_iff.mp h4 with h5 | h5
              · rcases min_le_iff.mp h5 with h6 | h6
                · calc min (min v gc) MR ≤ min v gc := min_le_left _ _
                    _ ≤ v := min_le_left _ _
                    _ ≤ r := h6
                · exact absurd (le_trans h6 hra) (not_le.mpr haw)
              · calc min (min v gc) MR ≤ MR := min_le_right _ _
                  _ ≤ r := h5
            · intro hbetar
              have hb2r : min beta (min v w) ≤ r :=
                le_trans (min_le_left _ _) hbetar
              have h4 := hR2 hb2r
              have hrv2 : r ≤ min v w := le_trans h4 (min_le_left _ _)
              have hrMR : r ≤ MR := le_trans h4 (min_le_right _ _)
              have hrgc : r ≤ gc := by
                by_cases hwb : beta ≤ w
                · exact le_trans (le_trans hrv2 (min_le_right _ _))
                    (hC2 hwb)
                · rw [← hC3 haw (not_le.mp hwb)]
                  exact le_trans hrv2 (min_le_right _ _)
              exact le_min
                (le_min (le_trans hrv2 (min_le_left _ _)) hrgc) hrMR
            · intro har hrbeta
              by_cases hrb2 : r < min beta (min v w)
              · have heq := hR3 har hrb2
                by_cases hwb : w < beta
                · have hwgc : w = gc := hC3 haw hwb
                  rw [heq, hwgc]
                · have hwb2 : beta ≤ w := not_lt.mp hwb
                  have hwgc : w ≤ gc := hC2 hwb2
                  have hwr : r < w := lt_of_lt_of_le hrbeta hwb2
                  have hac : min (min v w) MR = min (min v MR) w := by
                    rw [min_assoc, min_comm w MR, ← min_assoc]
                  have heq2 : r = min (min v MR) w := by rw [heq, hac]
                  have h5 : r = min v MR := by
                    rcases min_cases (min v MR) w with ⟨h6, _⟩ | ⟨h6, _⟩
                    · rw [heq2, h6]
                    · exact absurd (heq2.trans h6) (ne_of_lt hwr)
                  have hgcr : r < gc := lt_of_lt_of_le hwr hwgc
                  have hac2 : min (min v gc) MR = min (min v MR) gc := by
                    rw [min_assoc, min_comm gc MR, ← min_assoc]
                  rw [hac2, h5]
                  exact (min_eq_left (le_of_lt (h5 ▸ hgcr))).symm
              · have hb2r : min beta (min v w) ≤ r := not_lt.mp hrb2
                have hv2r : min v w ≤ r := by
                  rcases min_le_iff.mp hb2r with h5 | h5
                  · exact absurd hrbeta (not_lt.mpr h5)
                  · exact h5
                have hreq : r = min v w := le_antisymm hrle hv2r
                have hrMR : r ≤ MR :=
                  le_trans (hR2 hb2r) (min_le_right _ _)
                by_cases hwb : w < beta
                · have hwgc : w = gc := hC3 haw hwb
                  rw [← hwgc, ← hreq]
                  exact (min_eq_left hrMR).symm
                · have hwb2 : beta ≤ w := not_lt.mp hwb
                  have hwgc : w ≤ gc := hC2 hwb2
                  have hwr : r < w := lt_of_lt_of_le hrbeta hwb2
                  have hrv : r = v := by
                    rcases min_cases v w with ⟨h6, _⟩ | ⟨h6, _⟩
                    · rw [hreq, h6]
                    · exact absurd (hreq.trans h6) (ne_of_lt hwr)
                  have hgcr : r < gc := lt_of_lt_of_le hwr hwgc
                  rw [← hrv]
                  rw [min_eq_left (le_of_lt hgcr)]
                  exact (min_eq_left hrMR).symm
    · intro cs hcs hcon d a beta v hab
      cases cs with
      | nil =>
          simp only [pureABmaxLoop, pureMMmaxLoop]
          exact km_props_triv
      | cons p rest =>
          obtain ⟨m, c⟩ := p
          obtain ⟨hc, hrest⟩ := contractList_cons hcon
          have hcsize : sizeOf c < n :=
            lt_of_lt_of_le (sizeOf_child_lt m c rest) hcs
          have hrsize : sizeOf rest < n :=
            lt_of_lt_of_le (sizeOf_rest_lt (m, c) rest) hcs
          obtain ⟨hC1, hC2, hC3⟩ := (ih (n - 1) (by omega)).1 c
            (by omega) hc (d - 1) a beta hab
          simp only [pureABmaxLoop, pureMMmaxLoop]
          rw [pureMMmaxLoop_decompose score rest d
            (max v (pureMMmin score c (d - 1)))]
          set w := pureABmin score c (d - 1) a beta with hw
          set gc := pureMMmin score c (d - 1) with hgc
          set MR := pureMMmaxLoop score rest d (⊥ : Score) with hMR
          by_cases hbr : beta ≤ max v w
          · simp only [hbr, if_true]
            refine ⟨?_, ?_, ?_⟩
            · intro hra
              exact absurd hab (not_lt.mpr (le_trans hbr hra))
            · intro _
              by_cases hwb : beta ≤ w
              · calc max v w ≤ max v gc := max_le_max le_rfl (hC2 hwb)
                  _ ≤ max (max v gc) MR := le_max_left _ _
              · push_neg at hwb
                have hvr : max v w = v := by
                  rcases max_cases v w with ⟨h1, _⟩ | ⟨h1, _⟩
                  · exact h1
                  · exact absurd (h1 ▸ hbr) (not_le.mpr hwb)
                rw [hvr]
                calc v ≤ max v gc := le_max_left _ _
                  _ ≤ max (max v gc) MR := le_max_left _ _
            · intro _ hrb
              exact absurd hbr (not_le.mpr hrb)
          · have hbr2 : max v w < beta := not_le.mp hbr
            have hvb : v < beta := lt_of_le_of_lt (le_max_left _ _) hbr2
            have hwb : w < beta := lt_of_le_of_lt (le_max_right _ _) hbr2
            simp only [hbr, if_false]
            have hab2 : max a (max v w) < beta := max_lt hab hbr2
            obtain ⟨hR1, hR2, hR3⟩ := (ih (n - 1) (by omega)).2.2.2 rest
              (by omega) hrest d (max a (max v w)) beta (max v w) hab2
            rw [pureMMmaxLoop_decompose score rest d (max v w), ← hMR]
              at hR1 hR2 hR3
            have hrge : max v w ≤ pureABmaxLoop score rest d
                (max a (max v w)) beta (max v w) :=
              pureABmaxLoop_ge score rest d _ _ _
            set r := pureABmaxLoop score rest d (max a (max v w)) beta
              (max v w) with hr
            refine ⟨?_, ?_, ?_⟩
            · intro hra
              have hra2 : r ≤ max a (max v w) :=
                le_trans hra (le_max_left _ _)
              have h4 := hR1 hra2
              have hv2r : max v w ≤ r := hrge
              have hMRr : MR ≤ r := le_trans (le_max_right _ _) h4
              have hwa : w ≤ a := le_trans (le_trans (le_max_right _ _) hv2r) hra
              have hgcw : gc ≤ w := hC1 hwa
              exact max_le (max_le
                (le_trans (le_max_left v w) hv2r)
                (le_trans (le_trans hgcw (le_max_right v w)) hv2r)) hMRr
            · intro hbetar
              have h4 := hR2 hbetar
              have hwr : w < r := lt_of_lt_of_le hwb hbetar
              have hac : max (max v w) MR = max (max v MR) w := by
                rw [max_assoc, max_comm w MR, ← max_assoc]
              rw [hac] at h4
              rcases le_max_iff.mp h4 with h5 | h5
              · calc r ≤ max v MR := h5
                  _ ≤ max (max v gc) MR :=
                    max_le_max (le_max_left _ _) le_rfl
              · exact absurd h5 (not_le.mpr hwr)
            · intro har hrbeta
              by_cases hra2 : max a (max v w) < r
              · have heq := hR3 hra2 hrbeta
                by_cases haw : a < w
                · have hwgc : w = gc := hC3 haw hwb
                  rw [heq, hwgc]
                · have hwa : w ≤ a := not_lt.mp haw
                  have hgcw : gc ≤ w := hC1 hwa
                  have hwr : w < r := lt_of_le_of_lt hwa har
                  have hac : max (max v w) MR = max (max v MR) w := by
                    rw [max_assoc, max_comm w MR, ← max_assoc]
                  have heq2 : r = max (max v MR) w := by rw [heq, hac]
                  have h5 : r = max v MR := by
                    rcases max_cases (max v MR) w with ⟨h6, _⟩ | ⟨h6, _⟩
                    · rw [heq2, h6]
                    · exact absurd (heq2.trans h6).symm (ne_of_lt hwr)
                  have hgcr : gc < r := lt_of_le_of_lt hgcw hwr
                  have hac2 : max (max v gc) MR = max (max v MR) gc := by
                    rw [max_assoc, max_comm gc MR, ← max_assoc]
                  rw [hac2, h5]
                  exact (max_eq_left (le_of_lt (h5 ▸ hgcr))).symm
              · have hra3 : r ≤ max a (max v w) := not_lt.mp hra2
                have hv2r : r ≤ max v w := by
                  rcases le_max_iff.mp hra3 with h5 | h5
                  · exact absurd har (not_lt.mpr h5)
                  · exact h5
                have hreq : r = max v w := le_antisymm hv2r hrge
                have hMRr : MR ≤ r :=
                  le_trans (le_max_right _ _) (hR1 hra3)
                by_cases haw : a < w
                · have hwgc : w = gc := hC3 haw hwb
                  rw [← hwgc, ← hreq]
                  exact (max_eq_left hMRr).symm
                · have hwa : w ≤ a := not_lt.mp haw
                  have hgcw : gc ≤ w := hC1 hwa
                  have hwr : w < r := lt_of_le_of_lt hwa har
                  have hrv : r = v := by
                    rcases max_cases v w with ⟨h6, _⟩ | ⟨h6, _⟩
                    · rw [hreq, h6]
                    · exact absurd (hreq.trans h6).symm (ne_of_lt hwr)
                  have hgcr : gc < r := lt_of_le_of_lt hgcw hwr
                  rw [← hrv]
                  rw [max_eq_left (le_of_lt hgcr)]
                  exact (max_eq_left hMRr).symm

/-- Along the root loop of alphabeta with the initial window, the alpha
bound and the best score coincide, and they accumulate exactly the true
minimax values of the children: pruning inside the children never changes
the running maximum. -/
theorem rootLoop_value (score : Board → Score) :
    ∀ (cs : List (Move × Board)) (d : Int) (a : Score) (best : Move),
      ScoreContractList score true cs = true →
      (pureABrootLoop score cs d a (⊤ : Score) a best).2
        = cs.foldl (fun acc c => max acc (pureMMmin score c.2 (d - 1)))
            a := by
  intro cs
  induction cs with
  | nil => intro d a best hcon; rfl
  | cons p rest ih =>
      intro d a best hcon
      obtain ⟨m, c⟩ := p
      obtain ⟨hc, hrest⟩ := contractList_cons hcon
      simp only [pureABrootLoop, List.foldl_cons]
      by_cases hatop : a < (⊤ : Score)
      · obtain ⟨hP1, hP2, hP3⟩ := (km_pack score (sizeOf c)).1 c le_rfl hc
          (d - 1) a (⊤ : Score) hatop
        by_cases hsa : pureABmin score c (d - 1) a (⊤ : Score) ≤ a
        · have hga : pureMMmin score c (d - 1)
              ≤ pureABmin score c (d - 1) a (⊤ : Score) := hP1 hsa
          have hlt : ¬ a < pureABmin score c (d - 1) a (⊤ : Score) :=
            not_lt.mpr hsa
          simp only [hlt, if_false]
          rw [max_eq_left hsa, ih d a best hrest,
            max_eq_left (le_trans hga hsa)]
        · have has : a < pureABmin score c (d - 1) a (⊤ : Score) :=
            not_le.mp hsa
          simp only [has, if_true]
          rw [max_eq_right (le_of_lt has)]
          by_cases hstop : pureABmin score c (d - 1) a (⊤ : Score)
              < (⊤ : Score)
          · have hseq : pureABmin score c (d - 1) a (⊤ : Score)
                = pureMMmin score c (d - 1) := hP3 has hstop
            rw [ih d _ m hrest, hseq,
              max_eq_right (le_of_lt (hseq ▸ has))]
          · have hstop3 : pureABmin score c (d - 1) a (⊤ : Score)
                = (⊤ : Score) := le_antisymm le_top (not_lt.mp hstop)
            have hsg : pureABmin score c (d - 1) a (⊤ : Score)
                ≤ pureMMmin score c (d - 1) := hP2 (by rw [hstop3])
            have hgeq : pureMMmin score c (d - 1) = (⊤ : Score) :=
              le_antisymm le_top (le_trans (le_of_eq hstop3.symm) hsg)
            rw [ih d _ m hrest, hstop3, hgeq, max_eq_right le_top]
      · have hatop2 : a = (⊤ : Score) :=
          le_antisymm le_top (not_lt.mp hatop)
        have hsa : pureABmin score c (d - 1) a (⊤ : Score) ≤ a := by
          rw [hatop2]; exact le_top
        have hga : pureMMmin score c (d - 1) ≤ a := by
          rw [hatop2]; exact le_top
        have hlt : ¬ a < pureABmin score c (d - 1) a (⊤ : Score) :=
          not_lt.mpr hsa
        simp only [hlt, if_false]
        rw [max_eq_left hsa, ih d a best hrest, max_eq_left hga]

/-- Claim C2: with no timeout, at least one legal move, depth at least 1
and an evaluator satisfying the spec terminal contract (section 4.1: the
decisive +inf / -inf on states where the player to move is immobilized,
relative to the node parity), the root value found by
AlphaBetaPlayer.alphabeta with the initial window (-inf, +inf) - the
best_score its root loop accumulates - equals the root value of
MinimaxPlayer's depth-d search, the maximum over the legal moves of
min_value applied to the forecast of each move at depth d - 1: pruning
never changes the optimal value.  The first conjunct ties the monadic
alphabeta to its pure root projection, the last ties MinimaxPlayer's
min_value on each child to the pure minimax value used on the right. -/
theorem alphabeta_value_equals_minimax_value :
    ∀ (score : Board → Score) (obs : Nat → ℚ) (thr : ℚ) (b : Board)
      (d : Int) (t : Trace),
      noTimeout obs thr → b.legalMoves ≠ [] → 1 ≤ d →
      ScoreContract score false b = true →
      (AlphaBetaPlayer.alphabeta score obs thr b d (⊥ : Score) (⊤ : Score)
          t).1
        = Except.ok ((pureABroot score b d (⊥ : Score) (⊤ : Score)).1)
      ∧ (pureABroot score b d (⊥ : Score) (⊤ : Score)).2
        = (b.children.map (fun c => pureMMmin score c.2 (d - 1))).foldl max
            (⊥ : Score)
      ∧ (∀ c ∈ b.children,
          (MinimaxPlayer.min_value score obs thr c.2 (d - 1) t).1
            = Except.ok (pureMMmin score c.2 (d - 1))) := by
  intro score obs thr b d t hno hne hd hcon
  have hemp : b.legalMoves.isEmpty = false := by
    cases hl : b.legalMoves with
    | nil => exact absurd hl hne
    | cons x xs => rfl
  refine ⟨alphabeta_bridge score obs thr hno b d (⊥ : Score) (⊤ : Score) t,
    ?_, ?_⟩
  · simp only [pureABroot, hemp, Bool.false_eq_true, if_false]
    rw [rootLoop_value score b.children d (⊥ : Score) sentinel
      (contract_children hcon)]
    rw [List.foldl_map]
  · intro c hc
    exact (mm_bridge score obs thr hno (sizeOf c.2)).1 c.2 le_rfl (d - 1) t

/-- Witness for claim C2 at a concrete input: the everywhere +inf
evaluator satisfies the terminal contract on the one-move board (its only
terminal state sits at a MIN node). -/
theorem alphabeta_value_equals_minimax_value_witness :
    (AlphaBetaPlayer.alphabeta topScore (constObs 100) (19 / 2) oneMoveBoard
        1 (⊥ : Score) (⊤ : Score) t0).1
      = Except.ok ((pureABroot topScore oneMoveBoard 1 (⊥ : Score)
          (⊤ : Score)).1)
    ∧ (pureABroot topScore oneMoveBoard 1 (⊥ : Score) (⊤ : Score)).2
      = (oneMoveBoard.children.map
          (fun c => pureMMmin topScore c.2 (1 - 1))).foldl max (⊥ : Score)
    ∧ (∀ c ∈ oneMoveBoard.children,
        (MinimaxPlayer.min_value topScore (constObs 100) (19 / 2) c.2
            (1 - 1) t0).1
          = Except.ok (pureMMmin topScore c.2 (1 - 1))) :=
  alphabeta_value_equals_minimax_value topScore (constObs 100) (19 / 2)
    oneMoveBoard 1 t0 (fun n => by norm_num [constObs])
    (by simp [oneMoveBoard, Board.legalMoves, Board.children])
    (by decide)
    (by simp [ScoreContract, ScoreContractList, oneMoveBoard, leafBoard,
      Board.legalMoves, Board.children, topScore])

theorem cs2_single (w h : Nat) (opp : List Move) (mv : Move) :
    custom_score_2 (EvalState.mk false false [mv] opp w h)
      = Score.ofQ
          (1 / max (1 / 100 : ℚ) (((w / 2 : Nat) : ℚ) - (mv.2 : ℚ))
            + 1 / max (1 / 100 : ℚ) (((h / 2 : Nat) : ℚ) - (mv.1 : ℚ))) := by
  simp [custom_score_2]

/-- Claim C7 as amended: for every board with width and height at least 2
and any opponent move list, the center-affinity evaluator custom_score_2
scores a state whose only legal move is the exact board-center cell
(height // 2, width // 2) strictly higher than states whose only legal
move is the corner (0, 0), (0, width - 1) or (height - 1, 0); the far
corner (height - 1, width - 1) however ties the center exactly (both
signed distances are clamped to 0.01, giving 100 + 100 = 200 on both
sides), so the claim's strict inequality fails for that one corner. -/
theorem custom_score_2_center_vs_corners :
    ∀ (w h : Nat) (opp : List Move), 2 ≤ w → 2 ≤ h →
      (custom_score_2 (EvalState.mk false false [((0 : Int), (0 : Int))]
          opp w h)
        < custom_score_2 (EvalState.mk false false
            [(((h / 2 : Nat) : Int), ((w / 2 : Nat) : Int))] opp w h))
      ∧ (custom_score_2 (EvalState.mk false false
            [((0 : Int), (w : Int) - 1)] opp w h)
        < custom_score_2 (EvalState.mk false false
            [(((h / 2 : Nat) : Int), ((w / 2 : Nat) : Int))] opp w h))
      ∧ (custom_score_2 (EvalState.mk false false
            [((h : Int) - 1, (0 : Int))] opp w h)
        < custom_score_2 (EvalState.mk false false
            [(((h / 2 : Nat) : Int), ((w / 2 : Nat) : Int))] opp w h))
      ∧ (custom_score_2 (EvalState.mk false false
            [((h : Int) - 1, (w : Int) - 1)] opp w h)
        = custom_score_2 (EvalState.mk false false
            [(((h / 2 : Nat) : Int), ((w / 2 : Nat) : Int))] opp w h)) := by
  intro w h opp hw hh
  have hclamp : ∀ x : ℚ, x ≤ 0 → max (1 / 100 : ℚ) x = 1 / 100 :=
    fun x hx => max_eq_left (le_trans hx (by norm_num))
  have hw1 : (1 : ℚ) ≤ ((w / 2 : Nat) : ℚ) := by
    have : 1 ≤ w / 2 := (Nat.le_div_iff_mul_le (by norm_num)).mpr (by omega)
    exact_mod_cast this
  have hh1 : (1 : ℚ) ≤ ((h / 2 : Nat) : ℚ) := by
    have : 1 ≤ h / 2 := (Nat.le_div_iff_mul_le (by norm_num)).mpr (by omega)
    exact_mod_cast this
  have hwm : max (1 / 100 : ℚ) (((w / 2 : Nat) : ℚ) - ((0 : Int) : ℚ))
      = ((w / 2 : Nat) : ℚ) := by
    rw [Int.cast_zero, sub_zero]
    exact max_eq_right (le_trans (by norm_num) hw1)
  have hhm : max (1 / 100 : ℚ) (((h / 2 : Nat) : ℚ) - ((0 : Int) : ℚ))
      = ((h / 2 : Nat) : ℚ) := by
    rw [Int.cast_zero, sub_zero]
    exact max_eq_right (le_trans (by norm_num) hh1)
  have hinvw : 1 / ((w / 2 : Nat) : ℚ) ≤ 1 := by
    rw [div_le_one (lt_of_lt_of_le one_pos hw1)]
    exact hw1
  have hinvh : 1 / ((h / 2 : Nat) : ℚ) ≤ 1 := by
    rw [div_le_one (lt_of_lt_of_le one_pos hh1)]
    exact hh1
  have hwfar : ((w / 2 : Nat) : ℚ) - (((w : Int) - 1 : Int) : ℚ) ≤ 0 := by
    have h2 : w / 2 + 1 ≤ w := by
      have h4 : w / 2 < w := Nat.div_lt_self (by omega) (by norm_num)
      omega
    have h3 : ((w / 2 : Nat) : ℚ) + 1 ≤ (w : ℚ) := by exact_mod_cast h2
    push_cast
    linarith
  have hhfar : ((h / 2 : Nat) : ℚ) - (((h : Int) - 1 : Int) : ℚ) ≤ 0 := by
    have h2 : h / 2 + 1 ≤ h := by
      have h4 : h / 2 < h := Nat.div_lt_self (by omega) (by norm_num)
      omega
    have h3 : ((h / 2 : Nat) : ℚ) + 1 ≤ (h : ℚ) := by exact_mod_cast h2
    push_cast
    linarith
  have hcenterw : ((w / 2 : Nat) : ℚ) - ((((w / 2 : Nat) : Int)) : ℚ)
      = 0 := by
    rw [Int.cast_natCast, sub_self]
  have hcenterh : ((h / 2 : Nat) : ℚ) - ((((h / 2 : Nat) : Int)) : ℚ)
      = 0 := by
    rw [Int.cast_natCast, sub_self]
  have hcenter : custom_score_2 (EvalState.mk false false
      [(((h / 2 : Nat) : Int), ((w / 2 : Nat) : Int))] opp w h)
      = Score.ofQ 200 := by
    rw [cs2_single]
    simp only [hcenterw, hcenterh, hclamp 0 le_rfl]
    norm_num
  refine ⟨?_, ?_, ?_, ?_⟩
  · rw [cs2_single, hcenter, Score.ofQ_lt_ofQ]
    simp only [hwm, hhm]
    linarith
  · rw [cs2_single, hcenter, Score.ofQ_lt_ofQ]
    simp only [hclamp _ hwfar, hhm]
    have : (1 : ℚ) / (1 / 100) = 100 := by norm_num
    rw [this]
    linarith
  · rw [cs2_single, hcenter, Score.ofQ_lt_ofQ]
    simp only [hclamp _ hhfar, hwm]
    have : (1 : ℚ) / (1 / 100) = 100 := by norm_num
    rw [this]
    linarith
  · rw [cs2_single, hcenter]
    simp only [hclamp _ hwfar, hclamp _ hhfar]
    norm_num

/-- Witness for the amended claim C7 at a concrete input. -/
theorem custom_score_2_center_vs_corners_witness :
    (custom_score_2 (EvalState.mk false false [((0 : Int), (0 : Int))]
        [((0 : Int), (0 : Int))] 3 3)
      < custom_score_2 (EvalState.mk false false
          [(((3 / 2 : Nat) : Int), ((3 / 2 : Nat) : Int))]
          [((0 : Int), (0 : Int))] 3 3))
    ∧ (custom_score_2 (EvalState.mk false false
          [((0 : Int), (3 : Int) - 1)] [((0 : Int), (0 : Int))] 3 3)
      < custom_score_2 (EvalState.mk false false
          [(((3 / 2 : Nat) : Int), ((3 / 2 : Nat) : Int))]
          [((0 : Int), (0 : Int))] 3 3))
    ∧ (custom_score_2 (EvalState.mk false false
          [((3 : Int) - 1, (0 : Int))] [((0 : Int), (0 : Int))] 3 3)
      < custom_score_2 (EvalState.mk false false
          [(((3 / 2 : Nat) : Int), ((3 / 2 : Nat) : Int))]
          [((0 : Int), (0 : Int))] 3 3))
    ∧ (custom_score_2 (EvalState.mk false false
          [((3 : Int) - 1, (3 : Int) - 1)] [((0 : Int), (0 : Int))] 3 3)
      = custom_score_2 (EvalState.mk false false
          [(((3 / 2 : Nat) : Int), ((3 / 2 : Nat) : Int))]
          [((0 : Int), (0 : Int))] 3 3)) :=
  custom_score_2_center_vs_corners 3 3 [((0 : Int), (0 : Int))]
    (by decide) (by decide)

end Isolation
